import Mathlib

/-!
# grepcrawlers: the crawler catalog

A shallow embedding of `lib/crawler.go` and of the orchestrator loop of
`cmd/root.go`.  Go strings are Lean strings (sequences of Unicode scalar
values); a Go `map[string]Crawler` is an association list with at most one
entry per key whose list order stands for the (unspecified) order in which a
`range` loop visits the map.
-/

namespace GrepCrawlers

/-! ## Strings: the pieces of Go's `strings` package that `Key` uses -/

/-- Go's `unicode.IsSpace`: the Latin-1 cases and the `White_Space` table. -/
def isSpace (c : Char) : Bool :=
  let n := c.toNat
  (9 ≤ n && n ≤ 13) || n == 0x20 || n == 0x85 || n == 0xA0 || n == 0x1680 ||
    (0x2000 ≤ n && n ≤ 0x200A) || n == 0x2028 || n == 0x2029 || n == 0x202F ||
    n == 0x205F || n == 0x3000

/-- Drop trailing white space of a character sequence. -/
def trimRightChars (l : List Char) : List Char :=
  (l.reverse.dropWhile isSpace).reverse

/-- Drop leading and trailing white space of a character sequence. -/
def trimSpaceChars (l : List Char) : List Char :=
  trimRightChars (l.dropWhile isSpace)

/-- Go's `strings.TrimSpace`: the slice of `s` without leading and trailing
white space (as `unicode.IsSpace` defines it). -/
def TrimSpace (s : String) : String := ⟨trimSpaceChars s.data⟩

/-- Go's `strings.ReplaceAll(s, old, new)` for a one-character `old`: every
occurrence of `old` is replaced by `new`. -/
def ReplaceAll (s : String) (old : Char) (new : String) : String :=
  ⟨s.data.flatMap fun c => if c = old then new.data else [c]⟩

/-! ## The entity and its canonical key -/

/-- The Go struct `Crawler`. -/
structure Crawler where
  ID : String
  Name : String
deriving DecidableEq, Repr

/-- `func (c Crawler) Key() string`. -/
def Crawler.Key (c : Crawler) : String :=
  ReplaceAll (TrimSpace c.ID) ',' ""

/-! ## The catalog: `type Crawlers map[string]Crawler` -/

/-- A Go map from string to `Crawler`, as the list of its entries. -/
structure Crawlers where
  entries : List (String × Crawler)
deriving DecidableEq, Repr

/-- Lookup in an entry list: the first entry with the key. -/
def lookupEntries (k : String) : List (String × Crawler) → Option Crawler
  | [] => none
  | (k', v) :: rest => if k' = k then some v else lookupEntries k rest

/-- Assignment in an entry list: an entry with the key is overwritten in place,
otherwise a new entry is added. -/
def setEntries (k : String) (v : Crawler) : List (String × Crawler) → List (String × Crawler)
  | [] => [(k, v)]
  | (k', v') :: rest => if k' = k then (k, v) :: rest else (k', v') :: setEntries k v rest

/-- The value returned by `make(Crawlers)`. -/
def Crawlers.empty : Crawlers := ⟨[]⟩

/-- The map read `existing, ok := m[k]`. -/
def Crawlers.get? (M : Crawlers) (k : String) : Option Crawler :=
  lookupEntries k M.entries

/-- The map write `m[k] = v`. -/
def Crawlers.set (M : Crawlers) (k : String) (v : Crawler) : Crawlers :=
  ⟨setEntries k v M.entries⟩

/-- The keys of the map, one per entry. -/
def Crawlers.keys (M : Crawlers) : List String := M.entries.map Prod.fst

/-- The number of entries, Go's `len(m)`. -/
def Crawlers.size (M : Crawlers) : Nat := M.entries.length

/-- A list of entries is a map when no key occurs twice. -/
def Crawlers.Valid (M : Crawlers) : Prop := M.keys.Nodup

/-- Every entry is stored under the canonical key of its own entity. -/
def Crawlers.Keyed (M : Crawlers) : Prop := ∀ p ∈ M.entries, p.1 = p.2.Key

instance (M : Crawlers) : Decidable M.Valid := inferInstanceAs (Decidable M.keys.Nodup)

instance (M : Crawlers) : Decidable M.Keyed :=
  inferInstanceAs (Decidable (∀ p ∈ M.entries, p.1 = p.2.Key))

/-- `func (M *Crawlers) Add(crawler Crawler)` on an initialized catalog:
`(*M)[crawler.Key()] = crawler`. -/
def Crawlers.Add (M : Crawlers) (crawler : Crawler) : Crawlers :=
  M.set crawler.Key crawler

/-- The ways `Add` stops the program. -/
inductive Fault where
  | fatal (msg : String)
  | nilMapWrite
deriving DecidableEq, Repr

/-- `Add` on the pointer it receives: `none` is the nil pointer (`log.Fatal`),
`some none` a pointer to a nil map (the write panics), `some (some m)` an
initialized catalog. -/
def Crawlers.AddPtr (M : Option (Option Crawlers)) (crawler : Crawler) :
    Except Fault Crawlers :=
  match M with
  | none => .error (.fatal "Crawlers map is nil")
  | some none => .error .nilMapWrite
  | some (some m) => .ok (m.Add crawler)

/-- The catalogs reachable from `make(Crawlers)` by `Add` calls. -/
inductive Crawlers.BuiltByAdd : Crawlers → Prop where
  | empty : Crawlers.BuiltByAdd Crawlers.empty
  | add (M : Crawlers) (c : Crawler) : Crawlers.BuiltByAdd M → Crawlers.BuiltByAdd (M.Add c)

/-! ## The pattern of `ScanBook`

The pattern is `(?i)crawler\s+#?([\d,]+)\.?\s+“([\w\s]+)\.?”`.  It is kept as
a list of items and run by a backtracking matcher that tries the alternatives in
the order of preference of Go's `regexp` (leftmost match first, a repetition
as long as possible first). -/

/-- The class `\s` of Go's `regexp`: tab, newline, form feed, carriage return
and space. -/
def reSpace (c : Char) : Bool :=
  c.toNat == 0x09 || c.toNat == 0x0A || c.toNat == 0x0C || c.toNat == 0x0D || c.toNat == 0x20

/-- The class `\d`. -/
def reDigit (c : Char) : Bool := 0x30 ≤ c.toNat && c.toNat ≤ 0x39

/-- The class `\w` under the flag `(?i)`: `[0-9A-Za-z_]` closed under case
folding, which adds U+017F (folds to `s`) and U+212A (folds to `k`). -/
def reWord (c : Char) : Bool :=
  reDigit c || (0x41 ≤ c.toNat && c.toNat ≤ 0x5A) || c.toNat == 0x5F ||
    (0x61 ≤ c.toNat && c.toNat ≤ 0x7A) || c.toNat == 0x17F || c.toNat == 0x212A

/-- A lower-case ASCII letter of the pattern under the flag `(?i)`: the letter,
its upper case, and for `k` and `s` the further rune that folds to it. -/
def reFold (x : Char) (c : Char) : Bool :=
  c == x || c == x.toUpper || (x == 'k' && c.toNat == 0x212A) || (x == 's' && c.toNat == 0x17F)

/-- The class `[\d,]`. -/
def reIdRune (c : Char) : Bool := reDigit c || c == ','

/-- The class `[\w\s]` under `(?i)`. -/
def reNameRune (c : Char) : Bool := reWord c || reSpace c

/-- The opening curly quotation mark U+201C. -/
def openQuote : Char := Char.ofNat 0x201C

/-- The closing curly quotation mark U+201D. -/
def closeQuote : Char := Char.ofNat 0x201D

/-- A piece of a pattern over one class of runes: `x`, `x?` (one first, none
second) and `x+` (longest first). -/
inductive Atom where
  | one (p : Char → Bool)
  | opt (p : Char → Bool)
  | plus (p : Char → Bool)

/-- An item of a pattern: an atom, or a capture group around atoms. -/
inductive Item where
  | atom (a : Atom)
  | group (body : List Atom)

/-- The first of two alternatives that matches. -/
def firstOf {β : Type} (a b : Option β) : Option β :=
  match a with
  | some r => some r
  | none => b

/-- The repetition `x*` in front of the continuation `k`: one more rune is
tried before stopping.  `k` gets the runes taken and the input left. -/
def starK {β : Type} (p : Char → Bool) (k : List Char → List Char → Option β) :
    List Char → Option β
  | [] => k [] []
  | c :: cs =>
    if p c then firstOf (starK p (fun got rest => k (c :: got) rest) cs) (k [] (c :: cs))
    else k [] (c :: cs)

/-- The atoms in sequence in front of the continuation `k`, which gets the runes
they took and the input left. -/
def matchAtoms {β : Type} :
    List Atom → List Char → (List Char → List Char → Option β) → Option β
  | [], inp, k => k [] inp
  | .one p :: as, inp, k =>
    match inp with
    | c :: cs => if p c then matchAtoms as cs (fun got rest => k (c :: got) rest) else none
    | [] => none
  | .opt p :: as, inp, k =>
    firstOf
      (match inp with
        | c :: cs => if p c then matchAtoms as cs (fun got rest => k (c :: got) rest) else none
        | [] => none)
      (matchAtoms as inp k)
  | .plus p :: as, inp, k =>
    match inp with
    | c :: cs =>
      if p c then
        starK p (fun got₁ rest₁ =>
          matchAtoms as rest₁ (fun got₂ rest₂ => k (c :: (got₁ ++ got₂)) rest₂)) cs
      else none
    | [] => none

/-- The items in sequence at the start of the input: `whole` is the text matched
so far and `groups` the text of the capture groups closed so far.  The result
is the slice `FindStringSubmatch` returns: the whole match, then the groups. -/
def matchItems : List Item → List Char → List Char → List String → Option (List String)
  | [], _, whole, groups => some (⟨whole⟩ :: groups)
  | .atom a :: items, inp, whole, groups =>
    matchAtoms [a] inp (fun got rest => matchItems items rest (whole ++ got) groups)
  | .group body :: items, inp, whole, groups =>
    matchAtoms body inp (fun got rest => matchItems items rest (whole ++ got) (groups ++ [⟨got⟩]))

/-- The leftmost match: the pattern is tried at every position of the input,
from the first on. -/
def findFrom (items : List Item) : List Char → Option (List String)
  | [] => matchItems items [] [] []
  | c :: cs => firstOf (matchItems items (c :: cs) [] []) (findFrom items cs)

/-- The compiled pattern `cregex` of `ScanBook`. -/
def cregex : List Item :=
  [.atom (.one (reFold 'c')), .atom (.one (reFold 'r')), .atom (.one (reFold 'a')),
    .atom (.one (reFold 'w')), .atom (.one (reFold 'l')), .atom (.one (reFold 'e')),
    .atom (.one (reFold 'r')),
    .atom (.plus reSpace),
    .atom (.opt (fun c => c == '#')),
    .group [.plus reIdRune],
    .atom (.opt (fun c => c == '.')),
    .atom (.plus reSpace),
    .atom (.one (fun c => c == openQuote)),
    .group [.plus reNameRune],
    .atom (.opt (fun c => c == '.')),
    .atom (.one (fun c => c == closeQuote))]

/-- `cregex.FindStringSubmatch(line)`: `none` is the nil slice of no match. -/
def FindStringSubmatch (line : String) : Option (List String) :=
  findFrom cregex line.data

/-- `cregex.MatchString(line)`. -/
def MatchString (line : String) : Bool :=
  (FindStringSubmatch line).isSome

/-- The body of the loop `for scanner.Scan()` of `ScanBook` for one line,
without its log lines. -/
def scanLine (crawlers : Crawlers) (line : String) : Crawlers :=
  if MatchString line then
    match FindStringSubmatch line with
    | some (_ :: id :: name :: _) => crawlers.Add ⟨TrimSpace id, TrimSpace name⟩
    | _ => crawlers                    -- len(match) < 3: continue
  else crawlers

/-- `func ScanBook(ebook string, debug bool) Crawlers` on the lines the EPUB
reader and the line scanner deliver for the book, in reading order. -/
def ScanBook (lines : List String) : Crawlers :=
  lines.foldl scanLine Crawlers.empty

/-- The line `Crawler #<id>. “<name>.”` of Scenario A. -/
def mentionLine (id name : String) : String :=
  "Crawler #" ++ id ++ ". “" ++ name ++ ".”"

/-- An ASCII letter, a decimal digit, an underscore or a space. -/
def asciiNameRune (c : Char) : Bool :=
  (0x30 ≤ c.toNat && c.toNat ≤ 0x39) || (0x41 ≤ c.toNat && c.toNat ≤ 0x5A) ||
    (0x61 ≤ c.toNat && c.toNat ≤ 0x7A) || c.toNat == 0x5F || c.toNat == 0x20

/-! ## The conflict resolver of `gatherCrawlers` -/

/-- The body of the loop `for id, crawler := range lib.ScanBook(...)` in
`gatherCrawlers`, without its log lines. -/
def resolve (force : Bool) (crawlers : Crawlers) (id : String) (crawler : Crawler) : Crawlers :=
  match crawlers.get? id with
  | some existing =>
    if crawler ≠ existing then
      if !force then crawlers          -- continue
      else crawlers.Add crawler
    else crawlers                      -- continue
  | none => crawlers.Add crawler

/-- One resolver step for an entity coming out of a `ScanBook` map, where the
range key is the entity's own canonical key. -/
def resolveEntity (force : Bool) (crawlers : Crawlers) (e : Crawler) : Crawlers :=
  resolve force crawlers e.Key e

/-- The seed of `gatherCrawlers`. -/
def seed : Crawler := ⟨"4,122", "Carl"⟩

/-- The loop `for id, crawler := range lib.ScanBook(rawfile, debug)` for one
book: the entries of the book's map go through the resolver, in the order of
the entry list. -/
def resolveBook (force : Bool) (crawlers : Crawlers) (book : List String) : Crawlers :=
  (ScanBook book).entries.foldl (fun acc p => resolve force acc p.1 p.2) crawlers

/-- The catalog of `gatherCrawlers` after the seed and the loop over the books. -/
def gatherCatalog (force : Bool) (books : List (List String)) : Crawlers :=
  books.foldl (resolveBook force) (Crawlers.empty.Add seed)

/-! ## CSV: `fmt.Sprintf` with the verb `%q`, that is `strconv.Quote` -/

/-- The double quote character. -/
def dquote : Char := Char.ofNat 0x22

/-- The backslash character. -/
def backslash : Char := Char.ofNat 0x5C

/-- The newline character. -/
def newline : Char := Char.ofNat 0x0A

/-- Go's `strconv.IsPrint`.  The Latin-1 range is decided as the library decides
it; above U+00FF the library consults its tables `isPrint16`, `isNotPrint16`,
`isPrint32` and `isNotPrint32`, which are taken as the parameter `printTable`. -/
def IsPrint (printTable : Char → Bool) (r : Char) : Bool :=
  let n := r.toNat
  if n ≤ 0xFF then
    if 0x20 ≤ n && n ≤ 0x7E then true
    else if 0xA1 ≤ n && n ≤ 0xFF then n != 0xAD
    else false
  else printTable r

/-- One digit of `"0123456789abcdef"`. -/
def lowerhex (n : Nat) : Char :=
  if n < 10 then Char.ofNat (0x30 + n) else Char.ofNat (0x57 + n)

/-- Go's `strconv.appendEscapedRune` for the double quote as the quote
character (neither ASCII-only nor graphic-only): what `Quote` writes for one
rune. -/
def escapedRune (printTable : Char → Bool) (r : Char) : List Char :=
  if r = dquote ∨ r = backslash then [backslash, r]
  else if IsPrint printTable r then [r]
  else
    let n := r.toNat
    if n = 0x07 then [backslash, 'a']
    else if n = 0x08 then [backslash, 'b']
    else if n = 0x0C then [backslash, 'f']
    else if n = 0x0A then [backslash, 'n']
    else if n = 0x0D then [backslash, 'r']
    else if n = 0x09 then [backslash, 't']
    else if n = 0x0B then [backslash, 'v']
    else if n < 0x20 ∨ n = 0x7F then
      [backslash, 'x', lowerhex (n / 16), lowerhex (n % 16)]
    else if n < 0x10000 then
      [backslash, 'u', lowerhex (n / 0x1000 % 16), lowerhex (n / 0x100 % 16),
        lowerhex (n / 0x10 % 16), lowerhex (n % 16)]
    else
      [backslash, 'U', lowerhex (n / 0x10000000 % 16), lowerhex (n / 0x1000000 % 16),
        lowerhex (n / 0x100000 % 16), lowerhex (n / 0x10000 % 16),
        lowerhex (n / 0x1000 % 16), lowerhex (n / 0x100 % 16),
        lowerhex (n / 0x10 % 16), lowerhex (n % 16)]

/-- Go's `strconv.Quote`, which is what the verb `%q` writes for a string: the
escaped runes of `s` between two double quotes. -/
def Quote (printTable : Char → Bool) (s : String) : String :=
  ⟨dquote :: (s.data.flatMap (escapedRune printTable) ++ [dquote])⟩

/-- `func (c Crawler) CSV() string`: `fmt.Sprintf("%q,%q\n", c.ID, c.Name)`. -/
def Crawler.CSV (printTable : Char → Bool) (c : Crawler) : String :=
  Quote printTable c.ID ++ "," ++ Quote printTable c.Name ++ ⟨[newline]⟩

/-- `func (c Crawler) MarshalCSV() []byte`. -/
def Crawler.MarshalCSV (printTable : Char → Bool) (c : Crawler) : ByteArray :=
  (c.CSV printTable).toUTF8

/-- The text the specification expects of `CSV`: both fields verbatim between
double quotes. -/
def verbatimLine (c : Crawler) : String :=
  ⟨[dquote] ++ c.ID.data ++ [dquote, ',', dquote] ++ c.Name.data ++ [dquote, newline]⟩

/-- A rune that `Quote` copies unchanged: printable, and neither the double
quote nor the backslash. -/
def plainRune (printTable : Char → Bool) (r : Char) : Bool :=
  IsPrint printTable r && r != dquote && r != backslash

/-! ## Numeric order of the keys: `SortIDsNumerically` -/

/-- The two errors of `strconv.ParseInt`: `ErrSyntax` and `ErrRange`. -/
inductive NumError where
  | invalid
  | outOfRange
deriving DecidableEq, Repr

/-- The digit loop of `strconv.ParseUint(s, 10, 64)`, with `n` the value read
so far: a byte that is no decimal digit is a syntax error, a value past
`2^64 - 1` a range error. -/
def parseUintLoop : List Char → Nat → Except NumError Nat
  | [], n => .ok n
  | c :: cs, n =>
    if 0x30 ≤ c.toNat ∧ c.toNat ≤ 0x39 then
      if n ≥ (2 ^ 64 - 1) / 10 + 1 then .error .outOfRange
      else if n * 10 + (c.toNat - 0x30) > 2 ^ 64 - 1 then .error .outOfRange
      else parseUintLoop cs (n * 10 + (c.toNat - 0x30))
    else .error .invalid

/-- Go's `strconv.ParseUint(s, 10, 64)`. -/
def ParseUint (s : List Char) : Except NumError Nat :=
  if s = [] then .error .invalid else parseUintLoop s 0

/-- Go's `strconv.ParseInt(s, 10, 64)`: an optional sign, then `ParseUint`, then
the range check of a signed 64-bit integer. -/
def ParseInt (s : String) : Except NumError Int :=
  match s.data with
  | [] => .error .invalid
  | c :: cs =>
    let neg := c = '-'
    let digits := if c = '+' ∨ c = '-' then cs else c :: cs
    match ParseUint digits with
    | .error .invalid => .error .invalid
    | .error .outOfRange => .error .outOfRange
    | .ok un =>
      if ¬ neg ∧ un ≥ 2 ^ 63 then .error .outOfRange
      else if neg ∧ un > 2 ^ 63 then .error .outOfRange
      else .ok (if neg then -(un : Int) else (un : Int))

/-- The comparison closure handed to `slices.SortFunc`; the closure variable
`lastErr` goes in and comes out. -/
def compareKeys (a b : String) (lastErr : Option NumError) : Int × Option NumError :=
  match ParseInt a with
  | .error err => (0, some err)
  | .ok aInt =>
    match ParseInt b with
    | .error err => (0, some err)
    | .ok bInt =>
      if aInt > bInt then (1, lastErr)
      else if aInt < bInt then (-1, lastErr)
      else (0, lastErr)

/-- A comparison function with a captured variable of type `Option NumError`. -/
abbrev Comparator := String → String → Option NumError → Int × Option NumError

/-- A sort procedure in the place of `slices.SortFunc`: it gets the comparator,
the slice and the captured variable, and returns the sorted slice and the
captured variable after all the comparisons it made. -/
abbrev SortProc := Comparator → List String → Option NumError → List String × Option NumError

/-- The inner loop of Go's `insertionSortCmpFunc`: the element `x` moves left
over the sorted part (given last element first) while `cmp(x, left) < 0`. -/
def insertLeft (cmp : Comparator) (x : String) :
    List String → Option NumError → List String × Option NumError
  | [], st => ([x], st)
  | y :: ys, st =>
    let r := cmp x y st
    if r.1 < 0 then
      let rest := insertLeft cmp x ys r.2
      (y :: rest.1, rest.2)
    else (x :: y :: ys, r.2)

/-- The outer loop of `insertionSortCmpFunc`: `sortedRev` is the sorted part,
last element first; the remaining elements are inserted one by one. -/
def insertionLoop (cmp : Comparator) :
    List String → List String → Option NumError → List String × Option NumError
  | [], sortedRev, st => (sortedRev.reverse, st)
  | x :: rest, sortedRev, st =>
    let r := insertLeft cmp x sortedRev st
    insertionLoop cmp rest r.1 r.2

/-- Go's `insertionSortCmpFunc`, the procedure `slices.SortFunc` runs on a slice
of at most twelve elements. -/
def insertionSortCmpFunc : SortProc := fun cmp data st =>
  match data with
  | [] => ([], st)
  | x :: rest => insertionLoop cmp rest [x] st

/-- The state of the captured variable after a sequence of comparator calls. -/
def afterCalls (cmp : Comparator) (calls : List (String × String)) (st : Option NumError) :
    Option NumError :=
  calls.foldl (fun s c => (cmp c.1 c.2 s).2) st

/-- What is assumed of `slices.SortFunc` (Go's standard library, a pattern
defeating quicksort outside this repository): it permutes the slice; it reaches
the comparator only through calls on elements of the slice, and with two or
more elements every element takes part in a call; and when the comparator's
"less than" is that of an integer value of the elements, the result is
ascending in that value. -/
structure SortFuncContract (sortFunc : SortProc) : Prop where
  perm : ∀ cmp xs st, (sortFunc cmp xs st).1.Perm xs
  calls : ∀ cmp xs st, ∃ calls : List (String × String),
    (sortFunc cmp xs st).2 = afterCalls cmp calls st ∧
    (∀ c ∈ calls, c.1 ∈ xs ∧ c.2 ∈ xs) ∧
    (2 ≤ xs.length → ∀ x ∈ xs, ∃ c ∈ calls, c.1 = x ∨ c.2 = x)
  sorted : ∀ cmp xs st (val : String → Int),
    (∀ a ∈ xs, ∀ b ∈ xs, ∀ s, (cmp a b s).1 < 0 ↔ val a < val b) →
    (sortFunc cmp xs st).1.Pairwise (fun a b => val a ≤ val b)

/-- `func (M *Crawlers) SortIDsNumerically() ([]string, error)`: the keys are
collected in the order the `range` loop visits the map, sorted with the
comparison closure, and returned with `lastErr`. -/
def Crawlers.SortIDsNumerically (sortFunc : SortProc) (M : Crawlers) :
    List String × Option NumError :=
  sortFunc compareKeys (M.entries.map fun p => p.2.Key) none

/-- The integer a key stands for in the comparison, when it has one. -/
def keyValue (k : String) : Option Int :=
  match ParseInt k with
  | .ok v => some v
  | .error _ => none

/-- The key `a` stands for a smaller integer than the key `b`. -/
def keyLess (a b : String) : Bool :=
  match keyValue a, keyValue b with
  | some x, some y => x < y
  | _, _ => false

/-- The key `a` stands for an integer that is at most that of the key `b`. -/
def keyLessEq (a b : String) : Bool :=
  match keyValue a, keyValue b with
  | some x, some y => x ≤ y
  | _, _ => false

/-! ## The run of `gatherCrawlers` -/

/-- The map read `m[k]` without the `ok`: the zero `Crawler` for an absent key. -/
def Crawlers.index (M : Crawlers) (k : String) : Crawler :=
  (M.get? k).getD ⟨"", ""⟩

/-- The ways a run of `gatherCrawlers` ends once the books are read: the usage
line and exit status 1, the fatal sort error, or the text written to the
output. -/
inductive Outcome where
  | usage
  | sortFailed (err : NumError)
  | written (out : String)
deriving DecidableEq, Repr

/-- `func gatherCrawlers(cmd *cobra.Command, args []string)`, with the books
named by `args` given as their lines: the catalog is seeded and filled, its
keys are sorted, and one CSV line per sorted key is written. -/
def gatherCrawlers (sortFunc : SortProc) (printTable : Char → Bool) (force : Bool)
    (books : List (List String)) : Outcome :=
  if books.length < 1 then .usage
  else
    match (gatherCatalog force books).SortIDsNumerically sortFunc with
    | (sortedKeys, none) =>
      .written (String.join (sortedKeys.map fun k =>
        ((gatherCatalog force books).index k).CSV printTable))
    | (_, some err) => .sortFailed err

/-! ## What a match of the pattern looks like -/

/-- The text `got` is matched by the atoms in sequence. -/
def AtomsMatch : List Atom → List Char → Prop
  | [], got => got = []
  | .one p :: as, got => ∃ c t, got = c :: t ∧ p c = true ∧ AtomsMatch as t
  | .opt p :: as, got =>
    (∃ c t, got = c :: t ∧ p c = true ∧ AtomsMatch as t) ∨ AtomsMatch as got
  | .plus p :: as, got =>
    ∃ c xs t, got = c :: (xs ++ t) ∧ p c = true ∧ (∀ x ∈ xs, p x = true) ∧ AtomsMatch as t

/-- The text `got` is matched by the items in sequence, the capture groups
taking the texts `groups`. -/
def ItemsMatch : List Item → List Char → List String → Prop
  | [], got, groups => got = [] ∧ groups = []
  | .atom a :: items, got, groups =>
    ∃ g₁ g₂, got = g₁ ++ g₂ ∧ AtomsMatch [a] g₁ ∧ ItemsMatch items g₂ groups
  | .group body :: items, got, groups =>
    ∃ g₁ g₂ rest, got = g₁ ++ g₂ ∧ AtomsMatch body g₁ ∧ groups = ⟨g₁⟩ :: rest ∧
      ItemsMatch items g₂ rest

/-- The line of Scenario E: the mention written with straight double quotes. -/
def straightLine (id name : String) : String :=
  "Crawler #" ++ id ++ ". " ++ ⟨[dquote]⟩ ++ name ++ "." ++ ⟨[dquote]⟩

/-- The ID of the entity is a non-empty run of decimal digits and commas. -/
def Crawler.idIsRun (c : Crawler) : Prop :=
  c.ID.data ≠ [] ∧ ∀ r ∈ c.ID.data, reIdRune r = true

instance (c : Crawler) : Decidable c.idIsRun :=
  inferInstanceAs (Decidable (c.ID.data ≠ [] ∧ ∀ r ∈ c.ID.data, reIdRune r = true))

/-! ## Re-parsing a CSV line, as the round-trip property words it -/

/-- The text `l` begins with the runes of `sep`. -/
def startsWith : List Char → List Char → Bool
  | [], _ => true
  | _ :: _, [] => false
  | s :: ss, c :: cs => s == c && startsWith ss cs

/-- The text before and the text after the first occurrence of `sep`. -/
def splitAtSep (sep : List Char) : List Char → Option (List Char × List Char)
  | [] => if sep = [] then some ([], []) else none
  | c :: cs =>
    if startsWith sep (c :: cs) then some ([], (c :: cs).drop sep.length)
    else (splitAtSep sep cs).map fun p => (c :: p.1, p.2)

/-- The re-parse of the round-trip property: the leading double quote and the
trailing double quote and newline are dropped, and what is left is split at the
separator quote, comma, quote into the two fields. -/
def reparseLine (line : String) : Option (String × String) :=
  match line.data with
  | [] => none
  | q :: rest =>
    if q = dquote then
      match rest.reverse with
      | n :: q' :: revBody =>
        if n = newline ∧ q' = dquote then
          (splitAtSep [dquote, ',', dquote] revBody.reverse).map fun p => (⟨p.1⟩, ⟨p.2⟩)
        else none
      | _ => none
    else none

/-- A printable ASCII rune other than the double quote and the backslash. -/
def asciiPlain (r : Char) : Bool :=
  0x20 ≤ r.toNat && r.toNat ≤ 0x7E && r != dquote && r != backslash

/-- The integer that the decimal digits `ds` stand for, after the value `n`
read so far. -/
def digitsValue : List Char → Nat → Nat
  | [], n => n
  | c :: cs, n => digitsValue cs (n * 10 + (c.toNat - 0x30))

/-- Two entry lists stand for the same map: every key reads the same in both. -/
def Crawlers.Same (A B : Crawlers) : Prop := ∀ k, A.get? k = B.get? k

/-! ## Entry lists -/

theorem lookupEntries_setEntries_self (k : String) (v : Crawler) (l : List (String × Crawler)) :
    lookupEntries k (setEntries k v l) = some v := by
  induction l with
  | nil => simp [setEntries, lookupEntries]
  | cons p t ih =>
    obtain ⟨k', v'⟩ := p
    by_cases h : k' = k
    · simp [setEntries, lookupEntries, h]
    · simp [setEntries, lookupEntries, h, ih]

theorem lookupEntries_setEntries_other (k k₀ : String) (v : Crawler) (l : List (String × Crawler))
    (hk : k₀ ≠ k) : lookupEntries k₀ (setEntries k v l) = lookupEntries k₀ l := by
  induction l with
  | nil => simp [setEntries, lookupEntries, Ne.symm hk]
  | cons p t ih =>
    obtain ⟨k', v'⟩ := p
    by_cases h : k' = k
    · subst h
      simp [setEntries, lookupEntries, Ne.symm hk]
    · by_cases h₀ : k' = k₀
      · subst h₀
        simp [setEntries, lookupEntries, h]
      · simp [setEntries, lookupEntries, h, h₀, ih]

theorem lookupEntries_isSome_iff (k : String) (l : List (String × Crawler)) :
    (lookupEntries k l).isSome ↔ k ∈ l.map Prod.fst := by
  induction l with
  | nil => simp [lookupEntries]
  | cons p t ih =>
    obtain ⟨k', v'⟩ := p
    by_cases h : k' = k
    · simp [lookupEntries, h]
    · simp only [lookupEntries, h, if_false, List.map_cons, List.mem_cons, ih]
      constructor
      · intro hm; exact Or.inr hm
      · rintro (hm | hm)
        · exact absurd hm.symm h
        · exact hm

theorem lookupEntries_eq_none_iff (k : String) (l : List (String × Crawler)) :
    lookupEntries k l = none ↔ k ∉ l.map Prod.fst := by
  rw [← lookupEntries_isSome_iff]
  cases lookupEntries k l <;> simp

theorem setEntries_keys_of_mem (k : String) (v : Crawler) (l : List (String × Crawler))
    (h : k ∈ l.map Prod.fst) : (setEntries k v l).map Prod.fst = l.map Prod.fst := by
  induction l with
  | nil => simp at h
  | cons p t ih =>
    obtain ⟨k', v'⟩ := p
    by_cases hk : k' = k
    · simp [setEntries, hk]
    · have ht : k ∈ t.map Prod.fst := by
        simp only [List.map_cons, List.mem_cons] at h
        rcases h with h | h
        · exact absurd h.symm hk
        · exact h
      simp [setEntries, hk, ih ht]

theorem setEntries_keys_of_not_mem (k : String) (v : Crawler) (l : List (String × Crawler))
    (h : k ∉ l.map Prod.fst) : (setEntries k v l).map Prod.fst = l.map Prod.fst ++ [k] := by
  induction l with
  | nil => simp [setEntries]
  | cons p t ih =>
    obtain ⟨k', v'⟩ := p
    simp only [List.map_cons, List.mem_cons, not_or] at h
    have hk : ¬ k' = k := fun e => h.1 e.symm
    simp [setEntries, hk, ih h.2]

theorem setEntries_setEntries (k : String) (a b : Crawler) (l : List (String × Crawler)) :
    setEntries k b (setEntries k a l) = setEntries k b l := by
  induction l with
  | nil => simp [setEntries]
  | cons p t ih =>
    obtain ⟨k', v'⟩ := p
    by_cases hk : k' = k
    · simp [setEntries, hk]
    · simp [setEntries, hk, ih]

theorem setEntries_nodup (k : String) (v : Crawler) (l : List (String × Crawler))
    (h : (l.map Prod.fst).Nodup) : ((setEntries k v l).map Prod.fst).Nodup := by
  by_cases hm : k ∈ l.map Prod.fst
  · rw [setEntries_keys_of_mem k v l hm]; exact h
  · rw [setEntries_keys_of_not_mem k v l hm]
    exact List.Nodup.append h (List.nodup_singleton k) (by simpa using hm)

theorem setEntries_mem (k : String) (v : Crawler) (l : List (String × Crawler))
    (p : String × Crawler) (hp : p ∈ setEntries k v l) : p = (k, v) ∨ p ∈ l := by
  induction l with
  | nil => simpa [setEntries] using hp
  | cons q t ih =>
    obtain ⟨k', v'⟩ := q
    by_cases hk : k' = k
    · simp only [setEntries, hk, if_true, List.mem_cons] at hp
      rcases hp with hp | hp
      · exact Or.inl hp
      · exact Or.inr (List.mem_cons_of_mem _ hp)
    · simp only [setEntries, hk, if_false, List.mem_cons] at hp
      rcases hp with hp | hp
      · exact Or.inr (by simp [hp])
      · rcases ih hp with h | h
        · exact Or.inl h
        · exact Or.inr (List.mem_cons_of_mem _ h)

/-! ## Catalogs -/

theorem Crawlers.get?_Add_self (M : Crawlers) (e : Crawler) : (M.Add e).get? e.Key = some e :=
  lookupEntries_setEntries_self _ _ _

theorem Crawlers.get?_Add_other (M : Crawlers) (e : Crawler) (k : String) (hk : k ≠ e.Key) :
    (M.Add e).get? k = M.get? k :=
  lookupEntries_setEntries_other _ _ _ _ hk

theorem Crawlers.Add_valid (M : Crawlers) (e : Crawler) (h : M.Valid) : (M.Add e).Valid :=
  setEntries_nodup _ _ _ h

theorem Crawlers.Add_keyed (M : Crawlers) (e : Crawler) (h : M.Keyed) : (M.Add e).Keyed := by
  intro p hp
  rcases setEntries_mem _ _ _ p hp with h' | h'
  · subst h'; rfl
  · exact h p h'

/-- Every catalog built by `Add` is a map whose entries sit under their own key. -/
theorem Crawlers.BuiltByAdd.valid_keyed {M : Crawlers} (h : M.BuiltByAdd) :
    M.Valid ∧ M.Keyed := by
  induction h with
  | empty => exact ⟨List.nodup_nil, fun p hp => by cases hp⟩
  | add M c _ ih => exact ⟨M.Add_valid c ih.1, M.Add_keyed c ih.2⟩

theorem filter_key_of_lookup (k : String) (v : Crawler) (l : List (String × Crawler))
    (hnd : (l.map Prod.fst).Nodup) (h : lookupEntries k l = some v) :
    l.filter (fun p => p.1 = k) = [(k, v)] := by
  induction l with
  | nil => simp [lookupEntries] at h
  | cons p t ih =>
    obtain ⟨k', v'⟩ := p
    simp only [List.map_cons, List.nodup_cons] at hnd
    by_cases hk : k' = k
    · subst hk
      simp only [lookupEntries, if_true, Option.some.injEq] at h
      subst h
      have hnone : t.filter (fun p => p.1 = k') = [] := by
        rw [List.filter_eq_nil_iff]
        intro q hq hq'
        have : q.1 = k' := by simpa using hq'
        exact hnd.1 (this ▸ List.mem_map_of_mem Prod.fst hq)
      simp [List.filter_cons, hnone]
    · simp only [lookupEntries, hk, if_false] at h
      simp [List.filter_cons, hk, ih hnd.2 h]

/-! ## Normalization -/

/-- Deleting commas, as `ReplaceAll` does it in `Key`. -/
theorem ReplaceAll_comma_data (s : String) :
    (ReplaceAll s ',' "").data = s.data.filter (fun c => c ≠ ',') := by
  simp only [ReplaceAll]
  induction s.data with
  | nil => rfl
  | cons c t ih =>
    by_cases hc : c = ','
    · simp [List.flatMap_cons, hc, ih]
    · simp [List.flatMap_cons, hc, ih]

theorem Key_data (c : Crawler) :
    c.Key.data = (trimSpaceChars c.ID.data).filter (fun c => c ≠ ',') := by
  simp [Crawler.Key, ReplaceAll_comma_data, TrimSpace]

theorem trimRightChars_eq (l : List Char) : trimRightChars l = l.rdropWhile isSpace := rfl

theorem mem_of_mem_trimSpaceChars {c : Char} {l : List Char} (h : c ∈ trimSpaceChars l) :
    c ∈ l := by
  have h1 : c ∈ l.dropWhile isSpace :=
    (List.rdropWhile_prefix isSpace (l.dropWhile isSpace)).subset h
  exact (List.dropWhile_sublist isSpace).subset h1

theorem trimSpaceChars_of_no_space (l : List Char) (h : ∀ c ∈ l, isSpace c = false) :
    trimSpaceChars l = l := by
  have h1 : l.dropWhile isSpace = l := by
    cases l with
    | nil => rfl
    | cons a t => simp [List.dropWhile_cons, h a (List.mem_cons_self a t)]
  have h2 : l.rdropWhile isSpace = l := by
    rw [List.rdropWhile_eq_self_iff]
    intro hl
    simp [h _ (List.getLast_mem hl)]
  rw [trimSpaceChars, h1, trimRightChars_eq, h2]

theorem filter_comma_of_no_comma (l : List Char) (h : ',' ∉ l) :
    l.filter (fun c => c ≠ ',') = l := by
  rw [List.filter_eq_self]
  intro c hc
  simp only [ne_eq, decide_not, Bool.not_eq_true', decide_eq_false_iff_not]
  rintro rfl
  exact h hc

theorem Key_no_comma (c : Crawler) : ',' ∉ c.Key.data := by
  rw [Key_data]
  simp

/-- A second normalization only trims: it has no comma left to delete. -/
theorem Key_Key (x : String) : (Crawler.mk (Crawler.mk x "").Key "").Key
    = TrimSpace (Crawler.mk x "").Key := by
  apply String.ext
  rw [Key_data]
  simp only [TrimSpace]
  apply filter_comma_of_no_comma
  intro h
  exact Key_no_comma _ (mem_of_mem_trimSpaceChars h)

theorem head_dropWhile_isSpace (l : List Char) (a : Char) (t : List Char)
    (h : l.dropWhile isSpace = a :: t) : isSpace a = false := by
  induction l with
  | nil => simp at h
  | cons b u ih =>
    by_cases hb : isSpace b = true
    · rw [List.dropWhile_cons_of_pos hb] at h
      exact ih h
    · rw [List.dropWhile_cons_of_neg hb] at h
      simp only [List.cons.injEq] at h
      rw [← h.1]
      simpa using hb

theorem trimSpaceChars_idempotent (l : List Char) :
    trimSpaceChars (trimSpaceChars l) = trimSpaceChars l := by
  unfold trimSpaceChars
  have hpre : trimRightChars (l.dropWhile isSpace) <+: l.dropWhile isSpace :=
    List.rdropWhile_prefix isSpace (l.dropWhile isSpace)
  have h1 : (trimRightChars (l.dropWhile isSpace)).dropWhile isSpace
      = trimRightChars (l.dropWhile isSpace) := by
    cases hr : trimRightChars (l.dropWhile isSpace) with
    | nil => rfl
    | cons a t =>
      rw [hr] at hpre
      obtain ⟨u, hu⟩ := hpre
      have ha := head_dropWhile_isSpace l a (t ++ u) (by rw [← hu]; rfl)
      simp [List.dropWhile_cons, ha]
  rw [h1, trimRightChars_eq, trimRightChars_eq, List.rdropWhile_idempotent]

/-! ## Quoting -/

theorem escapedRune_plain (printTable : Char → Bool) (r : Char)
    (h : plainRune printTable r = true) : escapedRune printTable r = [r] := by
  simp only [plainRune, Bool.and_eq_true, bne_iff_ne, ne_eq] at h
  obtain ⟨⟨hp, hq⟩, hb⟩ := h
  simp [escapedRune, hp, hq, hb]

theorem flatMap_escapedRune_plain (printTable : Char → Bool) (l : List Char)
    (h : ∀ r ∈ l, plainRune printTable r = true) :
    l.flatMap (escapedRune printTable) = l := by
  induction l with
  | nil => rfl
  | cons a t ih =>
    rw [List.flatMap_cons, escapedRune_plain printTable a (h a (List.mem_cons_self a t)),
      ih (fun r hr => h r (List.mem_cons_of_mem a hr))]
    rfl

/-! ## Insertion sort meets the contract -/

theorem afterCalls_append (cmp : Comparator) (c₁ c₂ : List (String × String))
    (st : Option NumError) :
    afterCalls cmp (c₁ ++ c₂) st = afterCalls cmp c₂ (afterCalls cmp c₁ st) := by
  simp [afterCalls, List.foldl_append]

theorem insertLeft_perm (cmp : Comparator) (x : String) (l : List String)
    (st : Option NumError) : (insertLeft cmp x l st).1.Perm (x :: l) := by
  induction l generalizing st with
  | nil => simp [insertLeft]
  | cons y ys ih =>
    simp only [insertLeft]
    split
    · exact ((ih _).cons y).trans (List.Perm.swap x y ys)
    · exact List.Perm.refl _

theorem insertionLoop_perm (cmp : Comparator) (rest sortedRev : List String)
    (st : Option NumError) :
    (insertionLoop cmp rest sortedRev st).1.Perm (sortedRev ++ rest) := by
  induction rest generalizing sortedRev st with
  | nil => simp [insertionLoop]
  | cons x rest ih =>
    simp only [insertionLoop]
    refine (ih _ _).trans ?_
    refine ((insertLeft_perm cmp x sortedRev st).append_right rest).trans ?_
    simpa using (@List.perm_middle _ x sortedRev rest).symm

theorem insertLeft_calls (cmp : Comparator) (x : String) (l : List String)
    (st : Option NumError) :
    ∃ calls : List (String × String),
      (insertLeft cmp x l st).2 = afterCalls cmp calls st ∧
      (∀ c ∈ calls, c.1 = x ∧ c.2 ∈ l) ∧
      (∀ y ys, l = y :: ys → (x, y) ∈ calls) := by
  induction l generalizing st with
  | nil => exact ⟨[], rfl, by simp, by simp⟩
  | cons y ys ih =>
    by_cases hlt : (cmp x y st).1 < 0
    · obtain ⟨calls, hst, hmem, _⟩ := ih (cmp x y st).2
      refine ⟨(x, y) :: calls, ?_, ?_, ?_⟩
      · simp only [insertLeft, hlt, if_true]
        rw [hst]
        rfl
      · intro c hc
        rcases List.mem_cons.1 hc with hc | hc
        · subst hc; simp
        · exact ⟨(hmem c hc).1, List.mem_cons_of_mem _ (hmem c hc).2⟩
      · intro y' ys' h
        simp only [List.cons.injEq] at h
        rw [← h.1]
        exact List.mem_cons_self _ _
    · refine ⟨[(x, y)], ?_, ?_, ?_⟩
      · simp only [insertLeft, hlt, if_false]
        rfl
      · intro c hc
        simp only [List.mem_singleton] at hc
        subst hc; simp
      · intro y' ys' h
        simp only [List.cons.injEq] at h
        rw [← h.1]
        exact List.mem_cons_self _ _

theorem insertLeft_ne_nil (cmp : Comparator) (x : String) (l : List String)
    (st : Option NumError) : (insertLeft cmp x l st).1 ≠ [] := by
  cases l with
  | nil => simp [insertLeft]
  | cons y ys =>
    simp only [insertLeft]
    split <;> simp

theorem insertionLoop_calls (cmp : Comparator) (rest sortedRev : List String)
    (st : Option NumError) (hne : sortedRev ≠ []) :
    ∃ calls : List (String × String),
      (insertionLoop cmp rest sortedRev st).2 = afterCalls cmp calls st ∧
      (∀ c ∈ calls, c.1 ∈ sortedRev ++ rest ∧ c.2 ∈ sortedRev ++ rest) ∧
      (∀ x ∈ rest, ∃ c ∈ calls, c.1 = x) ∧
      (∀ y ys, sortedRev = y :: ys → rest ≠ [] → ∃ c ∈ calls, c.2 = y) := by
  induction rest generalizing sortedRev st with
  | nil => exact ⟨[], rfl, by simp, by simp, by simp⟩
  | cons x rest ih =>
    obtain ⟨c₁, hst₁, hmem₁, hhead₁⟩ := insertLeft_calls cmp x sortedRev st
    obtain ⟨c₂, hst₂, hmem₂, hcov₂, _⟩ :=
      ih (insertLeft cmp x sortedRev st).1 (insertLeft cmp x sortedRev st).2
        (insertLeft_ne_nil cmp x sortedRev st)
    have hsub : ∀ z, z ∈ (insertLeft cmp x sortedRev st).1 ++ rest →
        z ∈ sortedRev ++ x :: rest := by
      intro z hz
      rcases List.mem_append.1 hz with hz | hz
      · have := (insertLeft_perm cmp x sortedRev st).subset hz
        rcases List.mem_cons.1 this with h | h
        · subst h; simp
        · simp [h]
      · simp [hz]
    refine ⟨c₁ ++ c₂, ?_, ?_, ?_, ?_⟩
    · simp only [insertionLoop]
      rw [hst₂, hst₁, afterCalls_append]
    · intro c hc
      rcases List.mem_append.1 hc with hc | hc
      · obtain ⟨h1, h2⟩ := hmem₁ c hc
        constructor
        · rw [h1]; simp
        · simp [h2]
      · exact ⟨hsub _ (hmem₂ c hc).1, hsub _ (hmem₂ c hc).2⟩
    · intro z hz
      rcases List.mem_cons.1 hz with hz | hz
      · subst hz
        obtain ⟨y, ys, hy⟩ := List.exists_cons_of_ne_nil hne
        exact ⟨(z, y), List.mem_append_left _ (hhead₁ y ys hy), rfl⟩
      · obtain ⟨c, hc, hcz⟩ := hcov₂ z hz
        exact ⟨c, List.mem_append_right _ hc, hcz⟩
    · intro y ys hy _
      exact ⟨(x, y), List.mem_append_left _ (hhead₁ y ys hy), rfl⟩

theorem insertLeft_sorted (cmp : Comparator) (val : String → Int) (x : String) (l : List String)
    (st : Option NumError)
    (hcmp : ∀ y ∈ l, ∀ s, (cmp x y s).1 < 0 ↔ val x < val y)
    (hl : l.Pairwise (fun a b => val b ≤ val a)) :
    (insertLeft cmp x l st).1.Pairwise (fun a b => val b ≤ val a) := by
  induction l generalizing st with
  | nil => simp [insertLeft]
  | cons y ys ih =>
    rw [List.pairwise_cons] at hl
    by_cases hlt : (cmp x y st).1 < 0
    · have hxy : val x < val y := (hcmp y (List.mem_cons_self y ys) st).1 hlt
      simp only [insertLeft, hlt, if_true]
      rw [List.pairwise_cons]
      refine ⟨?_, ih _ (fun z hz s => hcmp z (List.mem_cons_of_mem y hz) s) hl.2⟩
      intro z hz
      have := (insertLeft_perm cmp x ys (cmp x y st).2).subset hz
      rcases List.mem_cons.1 this with h | h
      · rw [h]; exact le_of_lt hxy
      · exact hl.1 z h
    · have hxy : val y ≤ val x :=
        not_lt.1 (fun h => hlt ((hcmp y (List.mem_cons_self y ys) st).2 h))
      simp only [insertLeft, hlt, if_false]
      rw [List.pairwise_cons, List.pairwise_cons]
      refine ⟨?_, hl⟩
      intro z hz
      rcases List.mem_cons.1 hz with h | h
      · rw [h]; exact hxy
      · exact le_trans (hl.1 z h) hxy

theorem insertionLoop_sorted (cmp : Comparator) (val : String → Int)
    (rest sortedRev : List String) (st : Option NumError)
    (hcmp : ∀ a ∈ sortedRev ++ rest, ∀ b ∈ sortedRev ++ rest, ∀ s,
      (cmp a b s).1 < 0 ↔ val a < val b)
    (hs : sortedRev.Pairwise (fun a b => val b ≤ val a)) :
    (insertionLoop cmp rest sortedRev st).1.Pairwise (fun a b => val a ≤ val b) := by
  induction rest generalizing sortedRev st with
  | nil =>
    simp only [insertionLoop]
    rw [List.pairwise_reverse]
    exact hs
  | cons x rest ih =>
    simp only [insertionLoop]
    apply ih
    · intro a ha b hb s
      have hsub : ∀ z, z ∈ (insertLeft cmp x sortedRev st).1 ++ rest →
          z ∈ sortedRev ++ x :: rest := by
        intro z hz
        rcases List.mem_append.1 hz with hz | hz
        · have := (insertLeft_perm cmp x sortedRev st).subset hz
          rcases List.mem_cons.1 this with h | h
          · subst h; simp
          · simp [h]
        · simp [hz]
      exact hcmp a (hsub a ha) b (hsub b hb) s
    · apply insertLeft_sorted cmp val x sortedRev st _ hs
      intro y hy s
      exact hcmp x (by simp) y (by simp [hy]) s

/-- Go's insertion sort meets the contract assumed of `slices.SortFunc`. -/
theorem insertionSortCmpFunc_contract : SortFuncContract insertionSortCmpFunc where
  perm := by
    intro cmp xs st
    cases xs with
    | nil => exact List.Perm.refl _
    | cons x rest => exact insertionLoop_perm cmp rest [x] st
  calls := by
    intro cmp xs st
    cases xs with
    | nil => exact ⟨[], rfl, by simp, by simp⟩
    | cons x rest =>
      obtain ⟨calls, hst, hmem, hcov, hhead⟩ :=
        insertionLoop_calls cmp rest [x] st (by simp)
      refine ⟨calls, hst, ?_, ?_⟩
      · intro c hc
        simpa using hmem c hc
      · intro hlen z hz
        have hrest : rest ≠ [] := by
          intro h
          subst h
          simp at hlen
        rcases List.mem_cons.1 hz with h | h
        · obtain ⟨c, hc, hcx⟩ := hhead x [] rfl hrest
          exact ⟨c, hc, Or.inr (hcx.trans h.symm)⟩
        · obtain ⟨c, hc, hcz⟩ := hcov z h
          exact ⟨c, hc, Or.inl hcz⟩
  sorted := by
    intro cmp xs st val hcmp
    cases xs with
    | nil => exact List.Pairwise.nil
    | cons x rest =>
      exact insertionLoop_sorted cmp val rest [x] st
        (by simp only [List.singleton_append]; exact hcmp) (List.pairwise_singleton _ _)


/-! ## The comparison closure -/

theorem keys_of_keyed (M : Crawlers) (hk : M.Keyed) :
    (M.entries.map fun p => p.2.Key) = M.keys := by
  unfold Crawlers.keys
  apply List.map_congr_left
  intro p hp
  exact (hk p hp).symm

theorem SortIDsNumerically_of_keyed (sortFunc : SortProc) (M : Crawlers) (hk : M.Keyed) :
    M.SortIDsNumerically sortFunc = sortFunc compareKeys M.keys none := by
  unfold Crawlers.SortIDsNumerically
  rw [keys_of_keyed M hk]

theorem compareKeys_of_values (a b : String) (x y : Int) (st : Option NumError)
    (ha : keyValue a = some x) (hb : keyValue b = some y) :
    (compareKeys a b st).2 = st ∧ ((compareKeys a b st).1 < 0 ↔ x < y) := by
  have ha' : ParseInt a = .ok x := by
    unfold keyValue at ha
    split at ha
    · simp only [Option.some.injEq] at ha
      subst ha
      assumption
    · cases ha
  have hb' : ParseInt b = .ok y := by
    unfold keyValue at hb
    split at hb
    · simp only [Option.some.injEq] at hb
      subst hb
      assumption
    · cases hb
  simp only [compareKeys, ha', hb']
  by_cases h1 : x > y
  · simp only [h1, if_true]
    exact ⟨trivial, by constructor <;> intro h <;> omega⟩
  · by_cases h2 : x < y
    · simp [h1, h2]
    · simp [h1, h2]

theorem compareKeys_of_bad (a b : String) (st : Option NumError)
    (h : keyValue a = none ∨ keyValue b = none) : (compareKeys a b st).2 ≠ none := by
  unfold compareKeys
  cases ha : ParseInt a with
  | error e => simp
  | ok x =>
    cases hb : ParseInt b with
    | error e => simp
    | ok y =>
      exfalso
      rcases h with h | h
      · simp [keyValue, ha] at h
      · simp [keyValue, hb] at h

theorem compareKeys_keeps_error (a b : String) (st : Option NumError) (h : st ≠ none) :
    (compareKeys a b st).2 ≠ none := by
  unfold compareKeys
  cases ParseInt a with
  | error e => simp
  | ok x =>
    cases ParseInt b with
    | error e => simp
    | ok y =>
      simp only
      split
      · exact h
      · split <;> exact h

theorem afterCalls_keeps_error (calls : List (String × String)) (st : Option NumError)
    (h : st ≠ none) : afterCalls compareKeys calls st ≠ none := by
  induction calls generalizing st with
  | nil => exact h
  | cons c cs ih => exact ih _ (compareKeys_keeps_error c.1 c.2 st h)

theorem afterCalls_of_bad (calls : List (String × String)) (st : Option NumError)
    (c : String × String) (hc : c ∈ calls)
    (hbad : keyValue c.1 = none ∨ keyValue c.2 = none) :
    afterCalls compareKeys calls st ≠ none := by
  induction calls generalizing st with
  | nil => cases hc
  | cons d ds ih =>
    rcases List.mem_cons.1 hc with h | h
    · subst h
      exact afterCalls_keeps_error ds _ (compareKeys_of_bad c.1 c.2 st hbad)
    · exact ih _ h

theorem afterCalls_of_values (calls : List (String × String)) (st : Option NumError)
    (h : ∀ c ∈ calls, (keyValue c.1).isSome ∧ (keyValue c.2).isSome) :
    afterCalls compareKeys calls st = st := by
  induction calls generalizing st with
  | nil => rfl
  | cons d ds ih =>
    obtain ⟨h1, h2⟩ := h d (List.mem_cons_self d ds)
    obtain ⟨x, hx⟩ := Option.isSome_iff_exists.1 h1
    obtain ⟨y, hy⟩ := Option.isSome_iff_exists.1 h2
    have := (compareKeys_of_values d.1 d.2 x y st hx hy).1
    show afterCalls compareKeys ds (compareKeys d.1 d.2 st).2 = st
    rw [this]
    exact ih st (fun c hc => h c (List.mem_cons_of_mem d hc))

/-! ## The matcher on a mention line -/

theorem starK_greedy {β : Type} (p : Char → Bool) (xs rest : List Char)
    (k : List Char → List Char → Option β) (r : β)
    (hxs : ∀ c ∈ xs, p c = true) (hrest : ∀ c cs, rest = c :: cs → p c = false)
    (hk : k xs rest = some r) : starK p k (xs ++ rest) = some r := by
  induction xs generalizing k with
  | nil =>
    cases rest with
    | nil => simpa [starK] using hk
    | cons c cs => simpa [starK, hrest c cs rfl] using hk
  | cons x xs ih =>
    have hx : p x = true := hxs x (List.mem_cons_self x xs)
    have := ih (fun got rest => k (x :: got) rest)
      (fun c hc => hxs c (List.mem_cons_of_mem x hc)) hk
    simp [starK, hx, this, firstOf]

theorem matchAtoms_plus {β : Type} (p : Char → Bool) (as : List Atom) (x : Char)
    (xs rest : List Char) (k : List Char → List Char → Option β) (r : β)
    (hxs : ∀ c ∈ x :: xs, p c = true) (hrest : ∀ c cs, rest = c :: cs → p c = false)
    (hk : matchAtoms as rest (fun got₂ rest₂ => k (x :: (xs ++ got₂)) rest₂) = some r) :
    matchAtoms (.plus p :: as) (x :: xs ++ rest) k = some r := by
  have hx : p x = true := hxs x (List.mem_cons_self x xs)
  simp only [matchAtoms, List.cons_append, hx, if_true]
  exact starK_greedy p xs rest _ r (fun c hc => hxs c (List.mem_cons_of_mem x hc)) hrest hk

theorem matchItems_one (p : Char → Bool) (items : List Item) (c : Char) (cs whole : List Char)
    (groups : List String) (hc : p c = true) :
    matchItems (.atom (.one p) :: items) (c :: cs) whole groups
      = matchItems items cs (whole ++ [c]) groups := by
  simp [matchItems, matchAtoms, hc]

theorem matchItems_opt (p : Char → Bool) (items : List Item) (c : Char) (cs whole : List Char)
    (groups : List String) (r : List String) (hc : p c = true)
    (hk : matchItems items cs (whole ++ [c]) groups = some r) :
    matchItems (.atom (.opt p) :: items) (c :: cs) whole groups = some r := by
  simp [matchItems, matchAtoms, hc, hk, firstOf]

theorem matchItems_plus (p : Char → Bool) (items : List Item) (x : Char)
    (xs rest whole : List Char) (groups : List String) (r : List String)
    (hxs : ∀ c ∈ x :: xs, p c = true) (hrest : ∀ c cs, rest = c :: cs → p c = false)
    (hk : matchItems items rest (whole ++ x :: xs) groups = some r) :
    matchItems (.atom (.plus p) :: items) (x :: xs ++ rest) whole groups = some r := by
  simp only [matchItems]
  apply matchAtoms_plus p [] x xs rest _ r hxs hrest
  simpa [matchAtoms] using hk

theorem matchItems_group_plus (p : Char → Bool) (items : List Item) (x : Char)
    (xs rest whole : List Char) (groups : List String) (r : List String)
    (hxs : ∀ c ∈ x :: xs, p c = true) (hrest : ∀ c cs, rest = c :: cs → p c = false)
    (hk : matchItems items rest (whole ++ x :: xs) (groups ++ [⟨x :: xs⟩]) = some r) :
    matchItems (.group [.plus p] :: items) (x :: xs ++ rest) whole groups = some r := by
  simp only [matchItems]
  apply matchAtoms_plus p [] x xs rest _ r hxs hrest
  simpa [matchAtoms] using hk

theorem mentionLine_data (id name : String) :
    (mentionLine id name).data
      = 'C' :: 'r' :: 'a' :: 'w' :: 'l' :: 'e' :: 'r' :: ' ' :: '#' ::
          (id.data ++ '.' :: ' ' :: openQuote :: (name.data ++ ['.', closeQuote])) := by
  simp only [mentionLine, String.data_append]
  have ho : openQuote = '“' := by decide
  have hc : closeQuote = '”' := by decide
  rw [ho, hc]
  simp

theorem asciiNameRune_reNameRune (c : Char) (h : asciiNameRune c = true) :
    reNameRune c = true := by
  simp only [asciiNameRune, Bool.or_eq_true, Bool.and_eq_true, decide_eq_true_eq,
    beq_iff_eq] at h
  simp only [reNameRune, reWord, reDigit, reSpace, Bool.or_eq_true, Bool.and_eq_true,
    decide_eq_true_eq, beq_iff_eq]
  omega

theorem char_eq_of_toNat (c : Char) (n : Nat) (h : c.toNat = n) : c = Char.ofNat n := by
  rw [← h, Char.ofNat_toNat]

theorem isSpace_false_of_reIdRune (c : Char) (h : reIdRune c = true) : isSpace c = false := by
  simp only [reIdRune, reDigit, Bool.or_eq_true, Bool.and_eq_true, decide_eq_true_eq,
    beq_iff_eq] at h
  rcases h with h | h
  · simp only [isSpace, Bool.or_eq_false_iff, Bool.and_eq_false_iff, decide_eq_false_iff_not,
      beq_eq_false_iff_ne, ne_eq]
    omega
  · subst h; decide

theorem eq_space_of_asciiNameRune (c : Char) (h : asciiNameRune c = true)
    (hs : isSpace c = true) : c = ' ' := by
  simp only [asciiNameRune, Bool.or_eq_true, Bool.and_eq_true, decide_eq_true_eq,
    beq_iff_eq] at h
  simp only [isSpace, Bool.or_eq_true, Bool.and_eq_true, decide_eq_true_eq,
    beq_iff_eq] at hs
  have h32 : c.toNat = 32 := by omega
  exact char_eq_of_toNat c 32 h32

theorem trimSpaceChars_of_ends (l : List Char)
    (hfirst : ∀ c, l.head? = some c → isSpace c = false)
    (hlast : ∀ c, l.getLast? = some c → isSpace c = false) : trimSpaceChars l = l := by
  have h1 : l.dropWhile isSpace = l := by
    cases l with
    | nil => rfl
    | cons a t => simp [List.dropWhile_cons, hfirst a rfl]
  have h2 : l.rdropWhile isSpace = l := by
    rw [List.rdropWhile_eq_self_iff]
    intro hl
    simp [hlast _ (List.getLast?_eq_getLast l hl)]
  rw [trimSpaceChars, h1, trimRightChars_eq, h2]

theorem FindStringSubmatch_mentionLine (id name : String)
    (hid : id.data ≠ []) (hidr : ∀ c ∈ id.data, reIdRune c = true)
    (hname : name.data ≠ []) (hnr : ∀ c ∈ name.data, asciiNameRune c = true) :
    FindStringSubmatch (mentionLine id name) = some [mentionLine id name, id, name] := by
  obtain ⟨i, is, hi⟩ := List.exists_cons_of_ne_nil hid
  obtain ⟨n, ns, hn⟩ := List.exists_cons_of_ne_nil hname
  have hwhole : (mentionLine id name) = ⟨(mentionLine id name).data⟩ := rfl
  have hidS : id = ⟨i :: is⟩ := by rw [← hi]
  have hnameS : name = ⟨n :: ns⟩ := by rw [← hn]
  unfold FindStringSubmatch
  rw [mentionLine_data, hi, hn]
  simp only [findFrom]
  have hmatch : matchItems cregex
      ('C' :: 'r' :: 'a' :: 'w' :: 'l' :: 'e' :: 'r' :: ' ' :: '#' ::
        (i :: is ++ '.' :: ' ' :: openQuote :: (n :: ns ++ ['.', closeQuote]))) [] []
      = some [mentionLine id name, id, name] := by
    unfold cregex
    rw [matchItems_one _ _ _ _ _ _ (by decide), matchItems_one _ _ _ _ _ _ (by decide),
      matchItems_one _ _ _ _ _ _ (by decide), matchItems_one _ _ _ _ _ _ (by decide),
      matchItems_one _ _ _ _ _ _ (by decide), matchItems_one _ _ _ _ _ _ (by decide),
      matchItems_one _ _ _ _ _ _ (by decide)]
    apply matchItems_plus reSpace _ ' ' [] _ _ _ _ (by decide)
      (by intro c cs h; simp only [List.cons.injEq] at h; rw [← h.1]; decide)
    apply matchItems_opt _ _ _ _ _ _ _ (by decide)
    apply matchItems_group_plus reIdRune _ i is _ _ _ _ (by rw [← hi]; exact hidr)
      (by intro c cs h; simp only [List.cons.injEq] at h; rw [← h.1]; decide)
    apply matchItems_opt _ _ _ _ _ _ _ (by decide)
    apply matchItems_plus reSpace _ ' ' [] _ _ _ _ (by decide)
      (by intro c cs h; simp only [List.cons.injEq] at h; rw [← h.1]; decide)
    rw [matchItems_one _ _ _ _ _ _ (by decide)]
    apply matchItems_group_plus reNameRune _ n ns _ _ _ _
      (by rw [← hn]; exact fun c hc => asciiNameRune_reNameRune c (hnr c hc))
      (by intro c cs h; simp only [List.cons.injEq] at h; rw [← h.1]; decide)
    apply matchItems_opt _ _ _ _ _ _ _ (by decide)
    rw [matchItems_one _ _ _ _ _ _ (by decide)]
    simp only [matchItems]
    rw [hwhole, mentionLine_data, hi, hn, ← hidS, ← hnameS]
    simp
  rw [hmatch]
  rfl


/-! ## The map of a book -/

theorem scanLine_builtByAdd (M : Crawlers) (line : String) (h : M.BuiltByAdd) :
    (scanLine M line).BuiltByAdd := by
  unfold scanLine
  split
  · split
    · exact Crawlers.BuiltByAdd.add _ _ h
    · exact h
  · exact h

theorem foldl_scanLine_builtByAdd (lines : List String) (M : Crawlers) (h : M.BuiltByAdd) :
    (lines.foldl scanLine M).BuiltByAdd := by
  induction lines generalizing M with
  | nil => exact h
  | cons l ls ih => exact ih _ (scanLine_builtByAdd M l h)

/-- The map `ScanBook` returns is built by `Add`: its range pairs are an entity
each under its own canonical key. -/
theorem ScanBook_builtByAdd (lines : List String) : (ScanBook lines).BuiltByAdd :=
  foldl_scanLine_builtByAdd lines _ Crawlers.BuiltByAdd.empty

/-! ## Every match of the matcher is a match of the pattern -/

theorem firstOf_eq_some {β : Type} (a b : Option β) (r : β) (h : firstOf a b = some r) :
    a = some r ∨ (a = none ∧ b = some r) := by
  cases a with
  | none => exact Or.inr ⟨rfl, h⟩
  | some x => exact Or.inl h

theorem starK_sound {β : Type} (p : Char → Bool) (inp : List Char)
    (k : List Char → List Char → Option β) (r : β) (h : starK p k inp = some r) :
    ∃ xs rest, inp = xs ++ rest ∧ (∀ x ∈ xs, p x = true) ∧ k xs rest = some r := by
  induction inp generalizing k with
  | nil => exact ⟨[], [], rfl, by simp, h⟩
  | cons c cs ih =>
    by_cases hc : p c = true
    · simp only [starK, hc, if_true] at h
      rcases firstOf_eq_some _ _ r h with h1 | ⟨_, h2⟩
      · obtain ⟨xs, rest, hcs, hxs, hk⟩ := ih _ h1
        refine ⟨c :: xs, rest, by rw [hcs]; rfl, ?_, hk⟩
        intro x hx
        rcases List.mem_cons.1 hx with hx | hx
        · rw [hx]; exact hc
        · exact hxs x hx
      · exact ⟨[], c :: cs, rfl, by simp, h2⟩
    · simp only [starK, hc] at h
      exact ⟨[], c :: cs, rfl, by simp, h⟩

theorem matchAtoms_sound {β : Type} (as : List Atom) (inp : List Char)
    (k : List Char → List Char → Option β) (r : β) (h : matchAtoms as inp k = some r) :
    ∃ got rest, inp = got ++ rest ∧ AtomsMatch as got ∧ k got rest = some r := by
  induction as generalizing inp k with
  | nil => exact ⟨[], inp, rfl, rfl, h⟩
  | cons a as ih =>
    have hone : ∀ (p : Char → Bool) (c : Char) (cs : List Char)
        (k' : List Char → List Char → Option β),
        (if p c then matchAtoms as cs (fun got rest => k' (c :: got) rest) else none)
          = some r →
        ∃ t rest, cs = t ++ rest ∧ p c = true ∧ AtomsMatch as t ∧
          k' (c :: t) rest = some r := by
      intro p c cs k' hp
      by_cases hc : p c = true
      · simp only [hc, if_true] at hp
        obtain ⟨got, rest, hcs, hm, hk⟩ := ih cs _ hp
        exact ⟨got, rest, hcs, hc, hm, hk⟩
      · simp [hc] at hp
    cases a with
    | one p =>
      cases inp with
      | nil => simp [matchAtoms] at h
      | cons c cs =>
        simp only [matchAtoms] at h
        obtain ⟨t, rest, hcs, hc, hm, hk⟩ := hone p c cs k h
        exact ⟨c :: t, rest, by rw [hcs]; rfl, ⟨c, t, rfl, hc, hm⟩, hk⟩
    | opt p =>
      simp only [matchAtoms] at h
      rcases firstOf_eq_some _ _ r h with h1 | ⟨_, h2⟩
      · cases inp with
        | nil => simp at h1
        | cons c cs =>
          simp only at h1
          obtain ⟨t, rest, hcs, hc, hm, hk⟩ := hone p c cs k h1
          exact ⟨c :: t, rest, by rw [hcs]; rfl, Or.inl ⟨c, t, rfl, hc, hm⟩, hk⟩
      · obtain ⟨got, rest, hinp, hm, hk⟩ := ih inp k h2
        exact ⟨got, rest, hinp, Or.inr hm, hk⟩
    | plus p =>
      cases inp with
      | nil => simp [matchAtoms] at h
      | cons c cs =>
        by_cases hc : p c = true
        · simp only [matchAtoms, hc, if_true] at h
          obtain ⟨xs, rest₁, hcs, hxs, hk₁⟩ := starK_sound p cs _ r h
          obtain ⟨got₂, rest, hrest₁, hm, hk⟩ := ih rest₁ _ hk₁
          refine ⟨c :: (xs ++ got₂), rest, ?_, ⟨c, xs, got₂, rfl, hc, hxs, hm⟩, hk⟩
          rw [hcs, hrest₁]
          simp
        · simp [matchAtoms, hc] at h

theorem matchItems_sound (items : List Item) (inp whole : List Char) (groups r : List String)
    (h : matchItems items inp whole groups = some r) :
    ∃ got rest gs, inp = got ++ rest ∧ ItemsMatch items got gs ∧
      r = ⟨whole ++ got⟩ :: (groups ++ gs) := by
  induction items generalizing inp whole groups with
  | nil =>
    simp only [matchItems, Option.some.injEq] at h
    exact ⟨[], inp, [], rfl, ⟨rfl, rfl⟩, by simp [← h]⟩
  | cons item items ih =>
    cases item with
    | atom a =>
      simp only [matchItems] at h
      obtain ⟨g₁, rest₁, hinp, hm, hk⟩ := matchAtoms_sound [a] inp _ r h
      obtain ⟨g₂, rest, gs, hrest₁, hms, hr⟩ := ih rest₁ _ _ hk
      refine ⟨g₁ ++ g₂, rest, gs, ?_, ⟨g₁, g₂, rfl, hm, hms⟩, ?_⟩
      · rw [hinp, hrest₁]; simp
      · rw [hr]; simp
    | group body =>
      simp only [matchItems] at h
      obtain ⟨g₁, rest₁, hinp, hm, hk⟩ := matchAtoms_sound body inp _ r h
      obtain ⟨g₂, rest, gs, hrest₁, hms, hr⟩ := ih rest₁ _ _ hk
      refine ⟨g₁ ++ g₂, rest, ⟨g₁⟩ :: gs, ?_, ⟨g₁, g₂, gs, rfl, hm, rfl, hms⟩, ?_⟩
      · rw [hinp, hrest₁]; simp
      · rw [hr]; simp

theorem findFrom_sound (items : List Item) (inp : List Char) (r : List String)
    (h : findFrom items inp = some r) :
    ∃ pre got rest gs, inp = pre ++ (got ++ rest) ∧ ItemsMatch items got gs ∧
      r = ⟨got⟩ :: gs := by
  induction inp with
  | nil =>
    simp only [findFrom] at h
    obtain ⟨got, rest, gs, hinp, hm, hr⟩ := matchItems_sound items [] [] [] r h
    exact ⟨[], got, rest, gs, by simpa using hinp, hm, by simpa using hr⟩
  | cons c cs ih =>
    simp only [findFrom] at h
    rcases firstOf_eq_some _ _ r h with h1 | ⟨_, h2⟩
    · obtain ⟨got, rest, gs, hinp, hm, hr⟩ := matchItems_sound items (c :: cs) [] [] r h1
      exact ⟨[], got, rest, gs, by simpa using hinp, hm, by simpa using hr⟩
    · obtain ⟨pre, got, rest, gs, hinp, hm, hr⟩ := ih h2
      exact ⟨c :: pre, got, rest, gs, by rw [hinp]; rfl, hm, hr⟩

theorem ItemsMatch_atom (a : Atom) (items : List Item) (got : List Char) (gs : List String)
    (h : ItemsMatch (.atom a :: items) got gs) :
    ∃ g₁ g₂, got = g₁ ++ g₂ ∧ ItemsMatch items g₂ gs := by
  obtain ⟨g₁, g₂, hgot, _, hm⟩ := h
  exact ⟨g₁, g₂, hgot, hm⟩

theorem ItemsMatch_one (p : Char → Bool) (items : List Item) (got : List Char)
    (gs : List String) (h : ItemsMatch (.atom (.one p) :: items) got gs) :
    ∃ c g₂, got = c :: g₂ ∧ p c = true ∧ ItemsMatch items g₂ gs := by
  obtain ⟨g₁, g₂, hgot, ⟨c, t, hg₁, hc, ht⟩, hm⟩ := h
  have ht' : t = [] := ht
  subst ht'
  exact ⟨c, g₂, by rw [hgot, hg₁]; rfl, hc, hm⟩

theorem ItemsMatch_group_plus (p : Char → Bool) (items : List Item) (got : List Char)
    (gs : List String) (h : ItemsMatch (.group [.plus p] :: items) got gs) :
    ∃ c xs g₂ rest, got = (c :: xs) ++ g₂ ∧ (∀ x ∈ c :: xs, p x = true) ∧
      gs = ⟨c :: xs⟩ :: rest ∧ ItemsMatch items g₂ rest := by
  obtain ⟨g₁, g₂, rest, hgot, ⟨c, xs, t, hg₁, hc, hxs, ht⟩, hgs, hm⟩ := h
  have ht' : t = [] := ht
  subst ht'
  simp only [List.append_nil] at hg₁
  subst hg₁
  refine ⟨c, xs, g₂, rest, hgot, ?_, hgs, hm⟩
  intro x hx
  rcases List.mem_cons.1 hx with hx | hx
  · rw [hx]; exact hc
  · exact hxs x hx

/-- A match of `cregex` in a line: the line holds the text of the first group, a
non-empty run of digits and commas, and further on an opening curly quote, the
text of the second group, a non-empty run of word and space runes, and a
closing curly quote. -/
theorem FindStringSubmatch_sound (line : String) (r : List String)
    (h : FindStringSubmatch line = some r) :
    ∃ whole id name a b d rest,
      r = [whole, ⟨id⟩, ⟨name⟩] ∧
      line.data = a ++ (id ++ (b ++ openQuote :: (name ++ (d ++ closeQuote :: rest)))) ∧
      id ≠ [] ∧ (∀ c ∈ id, reIdRune c = true) ∧
      name ≠ [] ∧ (∀ c ∈ name, reNameRune c = true) := by
  obtain ⟨pre, got, rest, gs, hline, hm, hr⟩ := findFrom_sound cregex line.data r h
  unfold cregex at hm
  obtain ⟨a₁, t₁, e₁, hm⟩ := ItemsMatch_atom _ _ _ _ hm
  obtain ⟨a₂, t₂, e₂, hm⟩ := ItemsMatch_atom _ _ _ _ hm
  obtain ⟨a₃, t₃, e₃, hm⟩ := ItemsMatch_atom _ _ _ _ hm
  obtain ⟨a₄, t₄, e₄, hm⟩ := ItemsMatch_atom _ _ _ _ hm
  obtain ⟨a₅, t₅, e₅, hm⟩ := ItemsMatch_atom _ _ _ _ hm
  obtain ⟨a₆, t₆, e₆, hm⟩ := ItemsMatch_atom _ _ _ _ hm
  obtain ⟨a₇, t₇, e₇, hm⟩ := ItemsMatch_atom _ _ _ _ hm
  obtain ⟨a₈, t₈, e₈, hm⟩ := ItemsMatch_atom _ _ _ _ hm
  obtain ⟨a₉, t₉, e₉, hm⟩ := ItemsMatch_atom _ _ _ _ hm
  obtain ⟨i, is, t₁₀, gs₁, e₁₀, hid, hgs, hm⟩ := ItemsMatch_group_plus _ _ _ _ hm
  obtain ⟨b₁, t₁₁, e₁₁, hm⟩ := ItemsMatch_atom _ _ _ _ hm
  obtain ⟨b₂, t₁₂, e₁₂, hm⟩ := ItemsMatch_atom _ _ _ _ hm
  obtain ⟨q, t₁₃, e₁₃, hq, hm⟩ := ItemsMatch_one _ _ _ _ hm
  obtain ⟨n, ns, t₁₄, gs₂, e₁₄, hname, hgs₁, hm⟩ := ItemsMatch_group_plus _ _ _ _ hm
  obtain ⟨d, t₁₅, e₁₅, hm⟩ := ItemsMatch_atom _ _ _ _ hm
  obtain ⟨q', t₁₆, e₁₆, hq', hm⟩ := ItemsMatch_one _ _ _ _ hm
  obtain ⟨e₁₇, hgs₂⟩ := hm
  have hqo : q = openQuote := by simpa using hq
  have hqc : q' = closeQuote := by simpa using hq'
  refine ⟨⟨got⟩, i :: is, n :: ns,
    pre ++ (a₁ ++ (a₂ ++ (a₃ ++ (a₄ ++ (a₅ ++ (a₆ ++ (a₇ ++ (a₈ ++ a₉)))))))),
    b₁ ++ b₂, d, rest, ?_, ?_, by simp, hid, by simp, hname⟩
  · rw [hr, hgs, hgs₁, hgs₂]
  · rw [hline, e₁, e₂, e₃, e₄, e₅, e₆, e₇, e₈, e₉, e₁₀, e₁₁, e₁₂, e₁₃, e₁₄, e₁₅, e₁₆, e₁₇,
      hqo, hqc]
    simp

/-! ## The entities a book yields -/

theorem scanLine_cases (M : Crawlers) (line : String) :
    scanLine M line = M ∨
    ∃ whole id name a b d rest,
      FindStringSubmatch line = some [whole, ⟨id⟩, ⟨name⟩] ∧
      line.data = a ++ (id ++ (b ++ openQuote :: (name ++ (d ++ closeQuote :: rest)))) ∧
      id ≠ [] ∧ (∀ c ∈ id, reIdRune c = true) ∧
      name ≠ [] ∧ (∀ c ∈ name, reNameRune c = true) ∧
      scanLine M line = M.Add ⟨⟨id⟩, TrimSpace ⟨name⟩⟩ := by
  cases hf : FindStringSubmatch line with
  | none => exact Or.inl (by simp [scanLine, MatchString, hf])
  | some r =>
    obtain ⟨whole, id, name, a, b, d, rest, hr, hline, hid, hidr, hname, hnr⟩ :=
      FindStringSubmatch_sound line r hf
    refine Or.inr ⟨whole, id, name, a, b, d, rest, by rw [hr], hline, hid, hidr, hname, hnr, ?_⟩
    have hidT : TrimSpace ⟨id⟩ = ⟨id⟩ := by
      apply String.ext
      exact trimSpaceChars_of_no_space _ (fun c hc => isSpace_false_of_reIdRune c (hidr c hc))
    simp [scanLine, MatchString, hf, hr, hidT]

theorem Add_idIsRun (M : Crawlers) (e : Crawler) (he : e.idIsRun)
    (hM : ∀ p ∈ M.entries, p.2.idIsRun) : ∀ p ∈ (M.Add e).entries, p.2.idIsRun := by
  intro p hp
  rcases setEntries_mem _ _ _ p hp with h | h
  · rw [h]; exact he
  · exact hM p h

theorem scanLine_idIsRun (M : Crawlers) (line : String)
    (hM : ∀ p ∈ M.entries, p.2.idIsRun) : ∀ p ∈ (scanLine M line).entries, p.2.idIsRun := by
  rcases scanLine_cases M line with h | ⟨whole, id, name, a, b, d, rest, _, _, hid, hidr, _, _, h⟩
  · rw [h]; exact hM
  · rw [h]
    exact Add_idIsRun M _ ⟨hid, hidr⟩ hM

theorem foldl_scanLine_idIsRun (lines : List String) (M : Crawlers)
    (hM : ∀ p ∈ M.entries, p.2.idIsRun) :
    ∀ p ∈ (lines.foldl scanLine M).entries, p.2.idIsRun := by
  induction lines generalizing M with
  | nil => exact hM
  | cons l ls ih => exact ih _ (scanLine_idIsRun M l hM)

theorem ScanBook_idIsRun (lines : List String) :
    ∀ p ∈ (ScanBook lines).entries, p.2.idIsRun :=
  foldl_scanLine_idIsRun lines _ (fun p hp => by cases hp)

theorem resolve_cases (force : Bool) (M : Crawlers) (id : String) (e : Crawler) :
    resolve force M id e = M ∨ resolve force M id e = M.Add e := by
  unfold resolve
  split
  · split
    · split
      · exact Or.inl rfl
      · exact Or.inr rfl
    · exact Or.inl rfl
  · exact Or.inr rfl

theorem resolve_idIsRun (force : Bool) (M : Crawlers) (id : String) (e : Crawler)
    (he : e.idIsRun) (hM : ∀ p ∈ M.entries, p.2.idIsRun) :
    ∀ p ∈ (resolve force M id e).entries, p.2.idIsRun := by
  rcases resolve_cases force M id e with h | h
  · rw [h]; exact hM
  · rw [h]; exact Add_idIsRun M e he hM

theorem foldl_resolve_idIsRun (force : Bool) (l : List (String × Crawler)) (M : Crawlers)
    (hl : ∀ p ∈ l, p.2.idIsRun) (hM : ∀ p ∈ M.entries, p.2.idIsRun) :
    ∀ p ∈ (l.foldl (fun acc p => resolve force acc p.1 p.2) M).entries, p.2.idIsRun := by
  induction l generalizing M with
  | nil => exact hM
  | cons q qs ih =>
    exact ih _ (fun p hp => hl p (List.mem_cons_of_mem q hp))
      (resolve_idIsRun force M q.1 q.2 (hl q (List.mem_cons_self q qs)) hM)

theorem resolveBook_idIsRun (force : Bool) (M : Crawlers) (book : List String)
    (hM : ∀ p ∈ M.entries, p.2.idIsRun) :
    ∀ p ∈ (resolveBook force M book).entries, p.2.idIsRun :=
  foldl_resolve_idIsRun force _ M (ScanBook_idIsRun book) hM

theorem foldl_resolveBook_idIsRun (force : Bool) (books : List (List String)) (M : Crawlers)
    (hM : ∀ p ∈ M.entries, p.2.idIsRun) :
    ∀ p ∈ (books.foldl (resolveBook force) M).entries, p.2.idIsRun := by
  induction books generalizing M with
  | nil => exact hM
  | cons b bs ih => exact ih _ (resolveBook_idIsRun force M b hM)

/-! ## The serialized line -/

theorem CSV_data (printTable : Char → Bool) (c : Crawler) :
    (c.CSV printTable).data
      = (Quote printTable c.ID).data ++ ',' :: ((Quote printTable c.Name).data ++ [newline]) := by
  simp [Crawler.CSV]

theorem CSV_of_plain (printTable : Char → Bool) (c : Crawler)
    (hid : ∀ r ∈ c.ID.data, plainRune printTable r = true)
    (hname : ∀ r ∈ c.Name.data, plainRune printTable r = true) :
    c.CSV printTable = verbatimLine c := by
  apply String.ext
  simp [Crawler.CSV, Quote, verbatimLine, flatMap_escapedRune_plain _ _ hid,
    flatMap_escapedRune_plain _ _ hname]

theorem splitAtSep_quote (id name : List Char) (hid : dquote ∉ id) :
    splitAtSep [dquote, ',', dquote] (id ++ dquote :: ',' :: dquote :: name)
      = some (id, name) := by
  induction id with
  | nil => simp [splitAtSep, startsWith]
  | cons c t ih =>
    have hc : ¬ dquote = c := fun h => hid (h ▸ List.mem_cons_self _ _)
    have ht : dquote ∉ t := fun h => hid (List.mem_cons_of_mem c h)
    simp [splitAtSep, startsWith, hc, ih ht]

theorem reparseLine_verbatimLine (c : Crawler) (hid : dquote ∉ c.ID.data) :
    reparseLine (verbatimLine c) = some (c.ID, c.Name) := by
  have hrev : (c.ID.data ++ [dquote, ',', dquote] ++ c.Name.data ++ [dquote, newline]).reverse
      = newline :: dquote :: (c.ID.data ++ dquote :: ',' :: dquote :: c.Name.data).reverse := by
    simp
  simp only [reparseLine, verbatimLine, List.singleton_append, List.cons_append, if_true]
  have hrev' : (c.ID.data ++ dquote :: ',' :: dquote :: (c.Name.data ++ [dquote, newline])).reverse
      = newline :: dquote :: (c.ID.data ++ dquote :: ',' :: dquote :: c.Name.data).reverse := by
    simp
  simp only [List.append_assoc, List.cons_append, List.nil_append, hrev', and_self, if_true,
    List.reverse_reverse, splitAtSep_quote _ _ hid, Option.map_some']

theorem plainRune_ne_dquote (printTable : Char → Bool) (l : List Char)
    (h : ∀ r ∈ l, plainRune printTable r = true) : dquote ∉ l := by
  intro hm
  have := h dquote hm
  simp [plainRune] at this

theorem lowerhex_ge (m : Nat) (h : m < 16) : 0x20 ≤ (lowerhex m).toNat := by
  revert m
  decide

theorem IsPrint_ge (printTable : Char → Bool) (r : Char) (h : IsPrint printTable r = true) :
    0x20 ≤ r.toNat := by
  unfold IsPrint at h
  by_cases h1 : r.toNat ≤ 0xFF
  · by_cases h2 : (0x20 ≤ r.toNat && r.toNat ≤ 0x7E) = true
    · simp only [Bool.and_eq_true, decide_eq_true_eq] at h2
      exact h2.1
    · by_cases h3 : (0xA1 ≤ r.toNat && r.toNat ≤ 0xFF) = true
      · simp only [Bool.and_eq_true, decide_eq_true_eq] at h3
        omega
      · simp [h1, h2, h3] at h
        omega
  · omega

/-- Every rune `Quote` writes for a rune is at or above the space: no control
character, so no newline and no carriage return, is written. -/
theorem escapedRune_ge (printTable : Char → Bool) (r : Char) :
    ∀ y ∈ escapedRune printTable r, 0x20 ≤ y.toNat := by
  have hb : 0x20 ≤ backslash.toNat := by decide
  have hq : 0x20 ≤ dquote.toNat := by decide
  unfold escapedRune
  by_cases h1 : r = dquote ∨ r = backslash
  · rw [if_pos h1]
    intro y hy
    simp only [List.mem_cons, List.mem_singleton, List.not_mem_nil, or_false] at hy
    rcases hy with hy | hy
    · rw [hy]; exact hb
    · rcases h1 with h | h
      · rw [hy, h]; exact hq
      · rw [hy, h]; exact hb
  · rw [if_neg h1]
    by_cases h2 : IsPrint printTable r = true
    · rw [if_pos h2]
      intro y hy
      simp only [List.mem_singleton] at hy
      rw [hy]; exact IsPrint_ge printTable r h2
    · rw [if_neg h2]
      intro y hy
      dsimp only at hy
      split_ifs at hy
      all_goals
        simp only [List.mem_cons, List.mem_singleton, List.not_mem_nil, or_false] at hy
      all_goals
        rcases hy with hy | hy | hy | hy | hy | hy | hy | hy | hy | hy
      all_goals try rw [hy]
      all_goals first
        | with_reducible exact hb
        | with_reducible exact lowerhex_ge _ (by omega)
        | decide

theorem Quote_ge (printTable : Char → Bool) (s : String) (y : Char)
    (hy : y ∈ (Quote printTable s).data) : 0x20 ≤ y.toNat := by
  have hq : 0x20 ≤ dquote.toNat := by decide
  unfold Quote at hy
  rcases List.mem_cons.1 hy with h | h
  · rw [h]; exact hq
  · rcases List.mem_append.1 h with h | h
    · obtain ⟨r, _, hr⟩ := List.mem_flatMap.1 h
      exact escapedRune_ge printTable r y hr
    · rw [List.mem_singleton.1 h]; exact hq

theorem plainRune_of_asciiPlain (printTable : Char → Bool) (r : Char)
    (h : asciiPlain r = true) : plainRune printTable r = true := by
  simp only [asciiPlain, Bool.and_eq_true, decide_eq_true_eq, bne_iff_ne, ne_eq] at h
  obtain ⟨⟨⟨h1, h2⟩, h3⟩, h4⟩ := h
  have h5 : r.toNat ≤ 0xFF := by omega
  simp [plainRune, IsPrint, h1, h2, h3, h4, h5]

theorem escapedRune_ascii (printTable : Char → Bool) (r : Char) (h : asciiPlain r = true) :
    escapedRune printTable r = [r] :=
  escapedRune_plain printTable r (plainRune_of_asciiPlain printTable r h)

theorem escapedRune_tab (printTable : Char → Bool) :
    escapedRune printTable (Char.ofNat 9) = [backslash, 't'] := by
  have hq : ¬ (Char.ofNat 9 = dquote ∨ Char.ofNat 9 = backslash) := by decide
  have hp : IsPrint printTable (Char.ofNat 9) = false := by
    simp [IsPrint]
  simp only [escapedRune, hq, hp, if_false]
  decide

theorem resolve_valid_keyed (force : Bool) (M : Crawlers) (id : String) (e : Crawler)
    (h : M.Valid ∧ M.Keyed) : (resolve force M id e).Valid ∧ (resolve force M id e).Keyed := by
  rcases resolve_cases force M id e with h' | h'
  · rw [h']; exact h
  · rw [h']; exact ⟨M.Add_valid e h.1, M.Add_keyed e h.2⟩

theorem foldl_resolve_valid_keyed (force : Bool) (l : List (String × Crawler)) (M : Crawlers)
    (h : M.Valid ∧ M.Keyed) :
    (l.foldl (fun acc p => resolve force acc p.1 p.2) M).Valid ∧
    (l.foldl (fun acc p => resolve force acc p.1 p.2) M).Keyed := by
  induction l generalizing M with
  | nil => exact h
  | cons q qs ih => exact ih _ (resolve_valid_keyed force M q.1 q.2 h)

theorem foldl_resolveBook_valid_keyed (force : Bool) (books : List (List String))
    (M : Crawlers) (h : M.Valid ∧ M.Keyed) :
    (books.foldl (resolveBook force) M).Valid ∧ (books.foldl (resolveBook force) M).Keyed := by
  induction books generalizing M with
  | nil => exact h
  | cons b bs ih => exact ih _ (foldl_resolve_valid_keyed force _ M h)

/-- The catalog of the pipeline is a map whose entries sit under their own keys. -/
theorem gatherCatalog_valid_keyed (force : Bool) (books : List (List String)) :
    (gatherCatalog force books).Valid ∧ (gatherCatalog force books).Keyed :=
  foldl_resolveBook_valid_keyed force books _
    (Crawlers.BuiltByAdd.valid_keyed (Crawlers.BuiltByAdd.add _ seed Crawlers.BuiltByAdd.empty))

theorem CSV_newline_split (printTable : Char → Bool) (c : Crawler) :
    ∃ body, (c.CSV printTable).data = body ++ [newline] ∧
      ∀ y ∈ body, 0x20 ≤ y.toNat := by
  refine ⟨(Quote printTable c.ID).data ++ ',' :: (Quote printTable c.Name).data, ?_, ?_⟩
  · rw [CSV_data]; simp
  · intro y hy
    rcases List.mem_append.1 hy with h | h
    · exact Quote_ge printTable _ y h
    · rcases List.mem_cons.1 h with h | h
      · rw [h]; decide
      · exact Quote_ge printTable _ y h

theorem CSV_count_newline (printTable : Char → Bool) (c : Crawler) :
    (c.CSV printTable).data.count newline = 1 := by
  obtain ⟨body, hdata, hbody⟩ := CSV_newline_split printTable c
  have hnot : newline ∉ body := by
    intro h
    have := hbody newline h
    revert this
    decide
  rw [hdata, List.count_append, List.count_eq_zero_of_not_mem hnot]
  simp

theorem join_CSV_count_newline (printTable : Char → Bool) (cs : List Crawler) :
    (String.join (cs.map fun c => c.CSV printTable)).data.count newline = cs.length := by
  rw [String.data_join, List.count_flatten]
  induction cs with
  | nil => rfl
  | cons c t ih =>
    simp only [List.map_cons, List.sum_cons, List.length_cons, CSV_count_newline]
    rw [ih]
    omega

/-! ## What the resolver keeps -/

theorem resolve_false_keeps (M : Crawlers) (e : Crawler) (k : String) (v : Crawler)
    (h : M.get? k = some v) : (resolve false M e.Key e).get? k = some v := by
  unfold resolve
  cases hget : M.get? e.Key with
  | some existing =>
    simp only
    split
    · exact h
    · exact h
  | none =>
    simp only
    have hk : k ≠ e.Key := by
      intro hk
      rw [hk, hget] at h
      cases h
    rw [M.get?_Add_other e k hk]
    exact h

theorem resolve_keeps_key (force : Bool) (M : Crawlers) (id : String) (e : Crawler)
    (k : String) (h : (M.get? k).isSome = true) :
    ((resolve force M id e).get? k).isSome = true := by
  rcases resolve_cases force M id e with h' | h'
  · rw [h']; exact h
  · rw [h']
    by_cases hk : k = e.Key
    · rw [hk, M.get?_Add_self e]; rfl
    · rw [M.get?_Add_other e k hk]; exact h

theorem foldl_resolve_false_keeps (l : List (String × Crawler)) (M : Crawlers)
    (hl : ∀ p ∈ l, p.1 = p.2.Key) (k : String) (v : Crawler) (h : M.get? k = some v) :
    (l.foldl (fun acc p => resolve false acc p.1 p.2) M).get? k = some v := by
  induction l generalizing M with
  | nil => exact h
  | cons q qs ih =>
    apply ih _ (fun p hp => hl p (List.mem_cons_of_mem q hp))
    show (resolve false M q.1 q.2).get? k = some v
    rw [hl q (List.mem_cons_self q qs)]
    exact resolve_false_keeps M q.2 k v h

theorem foldl_resolve_keeps_key (force : Bool) (l : List (String × Crawler)) (M : Crawlers)
    (k : String) (h : (M.get? k).isSome = true) :
    ((l.foldl (fun acc p => resolve force acc p.1 p.2) M).get? k).isSome = true := by
  induction l generalizing M with
  | nil => exact h
  | cons q qs ih => exact ih _ (resolve_keeps_key force M q.1 q.2 k h)

theorem resolveBook_false_keeps (M : Crawlers) (book : List String) (k : String) (v : Crawler)
    (h : M.get? k = some v) : (resolveBook false M book).get? k = some v :=
  foldl_resolve_false_keeps _ M (ScanBook_builtByAdd book).valid_keyed.2 k v h

theorem foldl_resolveBook_false_keeps (books : List (List String)) (M : Crawlers)
    (k : String) (v : Crawler) (h : M.get? k = some v) :
    (books.foldl (resolveBook false) M).get? k = some v := by
  induction books generalizing M with
  | nil => exact h
  | cons b bs ih => exact ih _ (resolveBook_false_keeps M b k v h)

theorem foldl_resolveBook_keeps_key (force : Bool) (books : List (List String)) (M : Crawlers)
    (k : String) (h : (M.get? k).isSome = true) :
    ((books.foldl (resolveBook force) M).get? k).isSome = true := by
  induction books generalizing M with
  | nil => exact h
  | cons b bs ih => exact ih _ (foldl_resolve_keeps_key force _ M k h)

/-! ## The key of a digits-and-commas ID -/

theorem trimSpaceChars_sandwich (ws₁ body ws₂ : List Char)
    (h₁ : ∀ c ∈ ws₁, isSpace c = true) (hb : ∀ c ∈ body, isSpace c = false)
    (h₂ : ∀ c ∈ ws₂, isSpace c = true) : trimSpaceChars (ws₁ ++ body ++ ws₂) = body := by
  unfold trimSpaceChars
  rw [List.append_assoc, List.dropWhile_append_of_pos h₁]
  cases body with
  | nil =>
    have : List.dropWhile isSpace ([] ++ ws₂) = [] := by
      rw [List.nil_append, List.dropWhile_eq_nil_iff]
      exact h₂
    rw [this]
    rfl
  | cons b t =>
    have hbs : isSpace b = false := hb b (List.mem_cons_self b t)
    have hd : List.dropWhile isSpace (b :: t ++ ws₂) = b :: t ++ ws₂ := by
      simp [List.dropWhile_cons, hbs]
    rw [hd]
    unfold trimRightChars
    rw [List.reverse_append,
      List.dropWhile_append_of_pos (fun c hc => h₂ c (List.mem_reverse.1 hc))]
    have hr : List.dropWhile isSpace (b :: t).reverse = (b :: t).reverse := by
      have := trimSpaceChars_of_no_space (b :: t) hb
      have h2 : (b :: t).rdropWhile isSpace = b :: t := by
        rw [List.rdropWhile_eq_self_iff]
        intro hl
        simp [hb _ (List.getLast_mem hl)]
      unfold List.rdropWhile at h2
      have := congrArg List.reverse h2
      simpa using this
    rw [hr, List.reverse_reverse]

theorem reDigit_false_of_isSpace (c : Char) (h : isSpace c = true) : reDigit c = false := by
  simp only [isSpace, Bool.or_eq_true, Bool.and_eq_true, decide_eq_true_eq, beq_iff_eq] at h
  simp only [reDigit, Bool.and_eq_false_iff, decide_eq_false_iff_not]
  omega

theorem filter_comma_eq_filter_digit (body : List Char) (hb : ∀ c ∈ body, reIdRune c = true) :
    body.filter (fun c => c ≠ ',') = body.filter reDigit := by
  apply List.filter_congr
  intro c hc
  have h := hb c hc
  simp only [reIdRune, Bool.or_eq_true, beq_iff_eq] at h
  by_cases hcomma : c = ','
  · subst hcomma
    decide
  · rcases h with h | h
    · simp [hcomma, h]
    · exact absurd h hcomma

/-! ## Parsing a run of digits -/

theorem le_digitsValue (ds : List Char) (n : Nat) : n ≤ digitsValue ds n := by
  induction ds generalizing n with
  | nil => exact Nat.le_refl n
  | cons c cs ih =>
    have := ih (n * 10 + (c.toNat - 0x30))
    simp only [digitsValue]
    omega

theorem parseUintLoop_digits (ds : List Char) (n : Nat)
    (hds : ∀ c ∈ ds, reDigit c = true) (hn : n ≤ 2 ^ 64 - 1) :
    parseUintLoop ds n
      = if digitsValue ds n ≤ 2 ^ 64 - 1 then .ok (digitsValue ds n) else .error .outOfRange := by
  have hc : (2 ^ 64 - 1) / 10 + 1 = 1844674407370955162 := by norm_num
  have hm : 2 ^ 64 - 1 = 18446744073709551615 := by norm_num
  induction ds generalizing n with
  | nil =>
    simp only [parseUintLoop, digitsValue]
    rw [if_pos hn]
  | cons c cs ih =>
    have hcd := hds c (List.mem_cons_self c cs)
    simp only [reDigit, Bool.and_eq_true, decide_eq_true_eq] at hcd
    have hmono := le_digitsValue cs (n * 10 + (c.toNat - 0x30))
    simp only [parseUintLoop, digitsValue, hcd, and_self, if_true, hc, hm]
    by_cases h1 : n ≥ 1844674407370955162
    · rw [if_pos h1, if_neg (by omega)]
    · rw [if_neg h1]
      by_cases h2 : n * 10 + (c.toNat - 0x30) > 18446744073709551615
      · rw [if_pos h2, if_neg (by omega)]
      · rw [if_neg h2]
        have ih' := ih (n * 10 + (c.toNat - 0x30))
          (fun x hx => hds x (List.mem_cons_of_mem c hx)) (by omega)
        rw [hm] at ih'
        exact ih'

/-- The value of a key made of decimal digits only: the integer the digits
stand for when there is a digit and the integer is below `2^63`, none
otherwise. -/
theorem keyValue_digits (ds : List Char) (hds : ∀ c ∈ ds, reDigit c = true) :
    keyValue ⟨ds⟩
      = if ds ≠ [] ∧ digitsValue ds 0 < 2 ^ 63 then some (digitsValue ds 0 : Int) else none := by
  have hm : 2 ^ 64 - 1 = 18446744073709551615 := by norm_num
  have h63 : (2 : Nat) ^ 63 = 9223372036854775808 := by norm_num
  cases ds with
  | nil => simp [keyValue, ParseInt]
  | cons c cs =>
    have hcd := hds c (List.mem_cons_self c cs)
    have hplus : ¬ (c = '+' ∨ c = '-') := by
      rintro (h | h) <;> subst h <;> revert hcd <;> decide
    have hminus : ¬ c = '-' := fun h => hplus (Or.inr h)
    have hp : ¬ c = '+' := fun h => hplus (Or.inl h)
    have hloop := parseUintLoop_digits (c :: cs) 0 hds (by omega)
    rw [hm] at hloop
    by_cases h1 : digitsValue (c :: cs) 0 ≤ 18446744073709551615
    · rw [if_pos h1] at hloop
      by_cases h2 : digitsValue (c :: cs) 0 < 9223372036854775808
      · have h3 : ¬ digitsValue (c :: cs) 0 ≥ 9223372036854775808 := by omega
        simp [keyValue, ParseInt, ParseUint, hp, hminus, hloop, h63, h2, h3]
      · have h3 : digitsValue (c :: cs) 0 ≥ 9223372036854775808 := by omega
        simp [keyValue, ParseInt, ParseUint, hp, hminus, hloop, h63, h2, h3]
    · rw [if_neg h1] at hloop
      have h2 : ¬ digitsValue (c :: cs) 0 < 9223372036854775808 := by omega
      simp [keyValue, ParseInt, ParseUint, hp, hminus, hloop, h63, h2]

theorem Key_of_run (id name : String) (hid : ∀ c ∈ id.data, reIdRune c = true) :
    (Crawler.mk id name).Key = ⟨id.data.filter reDigit⟩ := by
  apply String.ext
  rw [Key_data]
  show (trimSpaceChars id.data).filter (fun c => c ≠ ',') = id.data.filter reDigit
  rw [trimSpaceChars_of_no_space _ (fun c hc => isSpace_false_of_reIdRune c (hid c hc))]
  exact filter_comma_eq_filter_digit id.data hid

theorem keyValue_Key_of_run (id name : String) (hid : ∀ c ∈ id.data, reIdRune c = true) :
    keyValue (Crawler.mk id name).Key
      = if id.data.filter reDigit ≠ [] ∧ digitsValue (id.data.filter reDigit) 0 < 2 ^ 63
        then some (digitsValue (id.data.filter reDigit) 0 : Int) else none := by
  rw [Key_of_run id name hid]
  exact keyValue_digits _ (fun c hc => (List.mem_filter.1 hc).2)

theorem SortIDsNumerically_no_error (sortFunc : SortProc) (hsort : SortFuncContract sortFunc)
    (M : Crawlers) (hkeyed : M.Keyed) (hparse : ∀ k ∈ M.keys, (keyValue k).isSome = true) :
    (M.SortIDsNumerically sortFunc).2 = none := by
  rw [SortIDsNumerically_of_keyed sortFunc M hkeyed]
  obtain ⟨calls, hst, hmem, _⟩ := hsort.calls compareKeys M.keys none
  rw [hst]
  exact afterCalls_of_values calls none
    (fun c hc => ⟨hparse _ (hmem c hc).1, hparse _ (hmem c hc).2⟩)

/-! ## Catalogs as maps -/

theorem lookupEntries_mem (k : String) (v : Crawler) (l : List (String × Crawler))
    (h : lookupEntries k l = some v) : (k, v) ∈ l := by
  induction l with
  | nil => simp [lookupEntries] at h
  | cons p t ih =>
    obtain ⟨k', v'⟩ := p
    by_cases hk : k' = k
    · simp only [lookupEntries, hk, if_true, Option.some.injEq] at h
      rw [hk, h]
      exact List.mem_cons_self _ _
    · simp only [lookupEntries, hk, if_false] at h
      exact List.mem_cons_of_mem _ (ih h)

theorem lookupEntries_of_mem (k : String) (v : Crawler) (l : List (String × Crawler))
    (hnd : (l.map Prod.fst).Nodup) (h : (k, v) ∈ l) : lookupEntries k l = some v := by
  induction l with
  | nil => cases h
  | cons p t ih =>
    obtain ⟨k', v'⟩ := p
    simp only [List.map_cons, List.nodup_cons] at hnd
    rcases List.mem_cons.1 h with h | h
    · simp only [Prod.mk.injEq] at h
      simp [lookupEntries, h.1, h.2]
    · have hk : ¬ k' = k := by
        intro hk
        apply hnd.1
        rw [hk]
        exact List.mem_map_of_mem Prod.fst h
      simp only [lookupEntries, hk, if_false]
      exact ih hnd.2 h

theorem Crawlers.Same.perm {A B : Crawlers} (hA : A.Valid) (hB : B.Valid) (h : A.Same B) :
    A.entries.Perm B.entries := by
  rw [List.perm_ext_iff_of_nodup (List.Nodup.of_map Prod.fst hA) (List.Nodup.of_map Prod.fst hB)]
  intro p
  obtain ⟨k, v⟩ := p
  constructor
  · intro hp
    have := lookupEntries_of_mem k v A.entries hA hp
    exact lookupEntries_mem k v B.entries ((h k).symm.trans this)
  · intro hp
    have := lookupEntries_of_mem k v B.entries hB hp
    exact lookupEntries_mem k v A.entries ((h k).trans this)

theorem Crawlers.Same.Add {A B : Crawlers} (h : A.Same B) (e : Crawler) :
    (A.Add e).Same (B.Add e) := by
  intro k
  by_cases hk : k = e.Key
  · rw [hk, A.get?_Add_self e, B.get?_Add_self e]
  · rw [A.get?_Add_other e k hk, B.get?_Add_other e k hk]
    exact h k

theorem resolve_decision (force : Bool) (A B : Crawlers) (id : String) (e : Crawler)
    (h : A.get? id = B.get? id) :
    (resolve force A id e = A ∧ resolve force B id e = B) ∨
    (resolve force A id e = A.Add e ∧ resolve force B id e = B.Add e) := by
  unfold resolve
  rw [h]
  cases B.get? id with
  | none => exact Or.inr ⟨rfl, rfl⟩
  | some existing =>
    simp only
    by_cases hne : e ≠ existing
    · cases force with
      | false => exact Or.inl (by simp [hne])
      | true => exact Or.inr (by simp [hne])
    · exact Or.inl (by simp [hne])

theorem resolve_same (force : Bool) (A B : Crawlers) (id : String) (e : Crawler)
    (h : A.Same B) : (resolve force A id e).Same (resolve force B id e) := by
  rcases resolve_decision force A B id e (h id) with ⟨h1, h2⟩ | ⟨h1, h2⟩
  · rw [h1, h2]; exact h
  · rw [h1, h2]; exact h.Add e

theorem resolve_get_other (force : Bool) (M : Crawlers) (id : String) (e : Crawler)
    (k : String) (hk : k ≠ e.Key) : (resolve force M id e).get? k = M.get? k := by
  rcases resolve_cases force M id e with h | h
  · rw [h]
  · rw [h]; exact M.get?_Add_other e k hk

theorem Add_Add_same (M : Crawlers) (e₁ e₂ : Crawler) (hne : e₁.Key ≠ e₂.Key) :
    ((M.Add e₁).Add e₂).Same ((M.Add e₂).Add e₁) := by
  intro k
  by_cases h2 : k = e₂.Key
  · have h1 : k ≠ e₁.Key := fun h => hne (h.symm.trans h2)
    rw [Crawlers.get?_Add_other _ e₁ k h1, h2, Crawlers.get?_Add_self, Crawlers.get?_Add_self]
  · rw [Crawlers.get?_Add_other _ e₂ k h2]
    by_cases h1 : k = e₁.Key
    · rw [h1, Crawlers.get?_Add_self, Crawlers.get?_Add_self]
    · rw [Crawlers.get?_Add_other _ e₁ k h1, Crawlers.get?_Add_other _ e₁ k h1,
        Crawlers.get?_Add_other _ e₂ k h2]

theorem resolve_comm (force : Bool) (M : Crawlers) (e₁ e₂ : Crawler) (hne : e₁.Key ≠ e₂.Key) :
    (resolve force (resolve force M e₁.Key e₁) e₂.Key e₂).Same
      (resolve force (resolve force M e₂.Key e₂) e₁.Key e₁) := by
  have h12 : (resolve force M e₁.Key e₁).get? e₂.Key = M.get? e₂.Key :=
    resolve_get_other force M e₁.Key e₁ e₂.Key (Ne.symm hne)
  have h21 : (resolve force M e₂.Key e₂).get? e₁.Key = M.get? e₁.Key :=
    resolve_get_other force M e₂.Key e₂ e₁.Key hne
  rcases resolve_decision force _ M e₂.Key e₂ h12 with ⟨a1, a2⟩ | ⟨a1, a2⟩ <;>
    rcases resolve_decision force _ M e₁.Key e₁ h21 with ⟨b1, b2⟩ | ⟨b1, b2⟩
  · rw [a1, b1, a2, b2]; exact fun _ => rfl
  · rw [a1, b1, a2, b2]; exact fun _ => rfl
  · rw [a1, b1, a2, b2]; exact fun _ => rfl
  · rw [a1, b1, a2, b2]; exact Add_Add_same M e₁ e₂ hne

theorem foldl_resolve_same (force : Bool) (l : List (String × Crawler)) (A B : Crawlers)
    (h : A.Same B) :
    (l.foldl (fun acc p => resolve force acc p.1 p.2) A).Same
      (l.foldl (fun acc p => resolve force acc p.1 p.2) B) := by
  induction l generalizing A B with
  | nil => exact h
  | cons q qs ih => exact ih _ _ (resolve_same force A B q.1 q.2 h)

/-- The loop over the pairs of a map does not depend on the visiting order. -/
theorem foldl_resolve_perm (force : Bool) (l₁ l₂ : List (String × Crawler))
    (hperm : l₁.Perm l₂) (hkeyed : ∀ p ∈ l₁, p.1 = p.2.Key) (hnd : (l₁.map Prod.fst).Nodup)
    (A B : Crawlers) (h : A.Same B) :
    (l₁.foldl (fun acc p => resolve force acc p.1 p.2) A).Same
      (l₂.foldl (fun acc p => resolve force acc p.1 p.2) B) := by
  induction hperm generalizing A B with
  | nil => exact h
  | cons x _ ih =>
    simp only [List.map_cons, List.nodup_cons] at hnd
    exact ih (fun p hp => hkeyed p (List.mem_cons_of_mem x hp)) hnd.2 _ _
      (resolve_same force A B x.1 x.2 h)
  | swap x y l =>
    simp only [List.foldl_cons]
    apply foldl_resolve_same
    have hx : x.1 = x.2.Key := hkeyed x (by simp)
    have hy : y.1 = y.2.Key := hkeyed y (by simp)
    have hxy : y.2.Key ≠ x.2.Key := by
      simp only [List.map_cons, List.nodup_cons, List.mem_cons, not_or] at hnd
      rw [← hx, ← hy]
      exact hnd.1.1
    intro k
    have s1 := resolve_same force _ _ x.1 x.2 (resolve_same force A B y.1 y.2 h) k
    rw [s1, hx, hy]
    exact resolve_comm force B y.2 x.2 hxy k
  | trans p₁ _ ih₁ ih₂ =>
    have hkeyed₂ := fun p hp => hkeyed p (p₁.symm.subset hp)
    have hnd₂ := ((p₁.map Prod.fst).nodup_iff).1 hnd
    intro k
    rw [ih₁ hkeyed hnd A B h k]
    exact ih₂ hkeyed₂ hnd₂ B B (fun _ => rfl) k

/-! ## The claims -/

/-- C1. Conflict policy of the resolver: when the canonical key of `e` is
present in the catalog with a stored entity different from `e`, one resolver
step without force returns the catalog unchanged, and one with force returns
the catalog with `e` stored under its key, every other key reading as before
and the key set unchanged. -/
theorem resolve_conflict_policy (M : Crawlers) (e existing : Crawler)
    (hpresent : M.get? e.Key = some existing) (hdiff : existing ≠ e) :
    resolveEntity false M e = M ∧
    resolveEntity true M e = M.set e.Key e ∧
    (resolveEntity true M e).get? e.Key = some e ∧
    (∀ k, k ≠ e.Key → (resolveEntity true M e).get? k = M.get? k) ∧
    (resolveEntity true M e).keys = M.keys := by
  have hne : e ≠ existing := fun h => hdiff h.symm
  have hforce : resolveEntity true M e = M.Add e := by
    simp [resolveEntity, resolve, hpresent, hne]
  refine ⟨?_, hforce, ?_, ?_, ?_⟩
  · simp [resolveEntity, resolve, hpresent, hne]
  · rw [hforce]; exact M.get?_Add_self e
  · intro k hk
    rw [hforce]; exact M.get?_Add_other e k hk
  · rw [hforce]
    apply setEntries_keys_of_mem
    rw [← lookupEntries_isSome_iff]
    have : lookupEntries e.Key M.entries = some existing := hpresent
    simp [this]

/-- Scenario C: crawler 7 stored as Alice, crawler 7 incoming as Bob. -/
theorem resolve_conflict_policy_witness :
    (Crawlers.mk [("7", ⟨"7", "Alice"⟩)]).get? (Crawler.mk "7" "Bob").Key = some ⟨"7", "Alice"⟩ ∧
    (⟨"7", "Alice"⟩ : Crawler) ≠ ⟨"7", "Bob"⟩ ∧
    (resolveEntity false ⟨[("7", ⟨"7", "Alice"⟩)]⟩ ⟨"7", "Bob"⟩).get? "7" = some ⟨"7", "Alice"⟩ ∧
    (resolveEntity true ⟨[("7", ⟨"7", "Alice"⟩)]⟩ ⟨"7", "Bob"⟩).get? "7" = some ⟨"7", "Bob"⟩ :=
  have h := resolve_conflict_policy ⟨[("7", ⟨"7", "Alice"⟩)]⟩ ⟨"7", "Bob"⟩ ⟨"7", "Alice"⟩
    (by decide) (by decide)
  ⟨by decide, by decide, by rw [h.1]; decide, h.2.2.1⟩

/-- C2, as the code has it: for every catalog whose entries sit under their own
keys (every catalog built by `Add`, in any visiting order) and whose keys all
parse as 64-bit integers, `SortIDsNumerically` returns no error and a permutation of
the keys that is ascending by integer value, equal values allowed; it is
strictly ascending when no two keys stand for the same integer.  The sort
procedure is any one that meets the contract of `slices.SortFunc`. -/
theorem SortIDsNumerically_ascending (sortFunc : SortProc) (hsort : SortFuncContract sortFunc)
    (M : Crawlers) (hvalid : M.Valid) (hkeyed : M.Keyed)
    (hparse : ∀ k ∈ M.keys, (keyValue k).isSome) :
    (M.SortIDsNumerically sortFunc).2 = none ∧
    (M.SortIDsNumerically sortFunc).1.Perm M.keys ∧
    (M.SortIDsNumerically sortFunc).1.Pairwise (fun a b => keyLessEq a b = true) ∧
    ((∀ a ∈ M.keys, ∀ b ∈ M.keys, a ≠ b → keyValue a ≠ keyValue b) →
      (M.SortIDsNumerically sortFunc).1.Pairwise (fun a b => keyLess a b = true)) := by
  rw [SortIDsNumerically_of_keyed sortFunc M hkeyed]
  have hperm : (sortFunc compareKeys M.keys none).1.Perm M.keys :=
    hsort.perm compareKeys M.keys none
  have herr : (sortFunc compareKeys M.keys none).2 = none := by
    obtain ⟨calls, hst, hmem, _⟩ := hsort.calls compareKeys M.keys none
    rw [hst]
    exact afterCalls_of_values calls none
      (fun c hc => ⟨hparse _ (hmem c hc).1, hparse _ (hmem c hc).2⟩)
  have hsorted : (sortFunc compareKeys M.keys none).1.Pairwise
      (fun a b => (keyValue a).getD 0 ≤ (keyValue b).getD 0) := by
    apply hsort.sorted compareKeys M.keys none (fun k => (keyValue k).getD 0)
    intro a ha b hb s
    obtain ⟨x, hx⟩ := Option.isSome_iff_exists.1 (hparse a ha)
    obtain ⟨y, hy⟩ := Option.isSome_iff_exists.1 (hparse b hb)
    rw [hx, hy]
    exact (compareKeys_of_values a b x y s hx hy).2
  refine ⟨herr, hperm, ?_, ?_⟩
  · refine hsorted.imp_of_mem ?_
    intro a b ha hb hab
    obtain ⟨x, hx⟩ := Option.isSome_iff_exists.1 (hparse a (hperm.subset ha))
    obtain ⟨y, hy⟩ := Option.isSome_iff_exists.1 (hparse b (hperm.subset hb))
    rw [hx, hy] at hab
    simpa [keyLessEq, hx, hy] using hab
  · intro hdistinct
    have hnodup : (sortFunc compareKeys M.keys none).1.Nodup := (hperm.nodup_iff).2 hvalid
    refine (hsorted.and hnodup).imp_of_mem ?_
    intro a b ha hb hab
    obtain ⟨x, hx⟩ := Option.isSome_iff_exists.1 (hparse a (hperm.subset ha))
    obtain ⟨y, hy⟩ := Option.isSome_iff_exists.1 (hparse b (hperm.subset hb))
    have hne := hdistinct a (hperm.subset ha) b (hperm.subset hb) hab.2
    have hle := hab.1
    rw [hx, hy] at hle hne
    have hxy : x ≠ y := fun h => hne (by rw [h])
    have hlt : x < y := lt_of_le_of_ne (by simpa using hle) hxy
    simpa [keyLess, hx, hy] using hlt

/-- Five crawlers, among them the seed and the two mentions "7" and "07" of one
number, sorted by Go's insertion sort. -/
theorem SortIDsNumerically_ascending_witness :
    SortFuncContract insertionSortCmpFunc ∧
    (((((Crawlers.empty.Add ⟨"4,122", "Carl"⟩).Add ⟨"10", "Ann"⟩).Add ⟨"7", "Alice"⟩).Add
      ⟨"1,000", "Bo"⟩).Add ⟨"07", "Bob"⟩).Valid ∧
    (((((Crawlers.empty.Add ⟨"4,122", "Carl"⟩).Add ⟨"10", "Ann"⟩).Add ⟨"7", "Alice"⟩).Add
      ⟨"1,000", "Bo"⟩).Add ⟨"07", "Bob"⟩).Keyed ∧
    (((((Crawlers.empty.Add ⟨"4,122", "Carl"⟩).Add ⟨"10", "Ann"⟩).Add ⟨"7", "Alice"⟩).Add
      ⟨"1,000", "Bo"⟩).Add ⟨"07", "Bob"⟩).SortIDsNumerically insertionSortCmpFunc
      = (["7", "07", "10", "1000", "4122"], none) ∧
    ((((((Crawlers.empty.Add ⟨"4,122", "Carl"⟩).Add ⟨"10", "Ann"⟩).Add ⟨"7", "Alice"⟩).Add
      ⟨"1,000", "Bo"⟩).Add ⟨"07", "Bob"⟩).SortIDsNumerically insertionSortCmpFunc).1.Pairwise
        (fun a b => keyLessEq a b = true) :=
  ⟨insertionSortCmpFunc_contract, by decide, by decide, by decide,
    (SortIDsNumerically_ascending insertionSortCmpFunc insertionSortCmpFunc_contract
      (((((Crawlers.empty.Add ⟨"4,122", "Carl"⟩).Add ⟨"10", "Ann"⟩).Add ⟨"7", "Alice"⟩).Add
        ⟨"1,000", "Bo"⟩).Add ⟨"07", "Bob"⟩)
      (by decide) (by decide) (by decide)).2.2.1⟩

/-- C2 fails as stated: the catalog built by adding the crawlers "7" and "07" has
the two decimal keys "7" and "07" of equal integer value, so the sorted keys,
`["7", "07"]` with Go's insertion sort, are not strictly ascending; no sort
procedure that returns a permutation of the keys makes them so.  A decimal key
past the 64-bit range, as in the last catalog, fails to parse and leaves the
keys 5 and 3 out of order. -/
theorem SortIDsNumerically_not_strict :
    ((Crawlers.empty.Add ⟨"7", "Alice"⟩).Add ⟨"07", "Bob"⟩).keys = ["7", "07"] ∧
    ((Crawlers.empty.Add ⟨"7", "Alice"⟩).Add ⟨"07", "Bob"⟩).SortIDsNumerically
      insertionSortCmpFunc = (["7", "07"], none) ∧
    keyValue "7" = some 7 ∧ keyValue "07" = some 7 ∧
    ¬ (((Crawlers.empty.Add ⟨"7", "Alice"⟩).Add ⟨"07", "Bob"⟩).SortIDsNumerically
      insertionSortCmpFunc).1.Pairwise (fun a b => keyLess a b = true) ∧
    (∀ sortFunc, SortFuncContract sortFunc →
      ¬ (((Crawlers.empty.Add ⟨"7", "Alice"⟩).Add ⟨"07", "Bob"⟩).SortIDsNumerically
        sortFunc).1.Pairwise (fun a b => keyLess a b = true)) ∧
    (((Crawlers.empty.Add ⟨"5", "Eve"⟩).Add ⟨"99999999999999999999", "Max"⟩).Add
      ⟨"3", "Tom"⟩).SortIDsNumerically insertionSortCmpFunc
      = (["5", "99999999999999999999", "3"], some .outOfRange) := by
  refine ⟨by decide, by decide, by decide, by decide, by decide, ?_, by decide⟩
  intro sortFunc hsort hpw
  have hperm := hsort.perm compareKeys ["7", "07"] none
  have hout : ((Crawlers.empty.Add ⟨"7", "Alice"⟩).Add ⟨"07", "Bob"⟩).SortIDsNumerically
      sortFunc = sortFunc compareKeys ["7", "07"] none := rfl
  rw [hout] at hpw
  have hlen := hperm.length_eq
  have hno : ∀ a ∈ ["7", "07"], ∀ b ∈ ["7", "07"], keyLess a b = false := by decide
  cases hl : (sortFunc compareKeys ["7", "07"] none).1 with
  | nil => rw [hl] at hlen; simp at hlen
  | cons a t =>
    cases t with
    | nil => rw [hl] at hlen; simp at hlen
    | cons b u =>
      rw [hl] at hpw hperm
      have hab : keyLess a b = true := (List.pairwise_cons.1 hpw).1 b (List.mem_cons_self b u)
      have ha : a ∈ ["7", "07"] := hperm.subset (List.mem_cons_self a _)
      have hb : b ∈ ["7", "07"] :=
        hperm.subset (List.mem_cons_of_mem a (List.mem_cons_self b u))
      rw [hno a ha b hb] at hab
      cases hab

/-- C3, as the code has it: a second normalization only trims white space, so
it returns `TrimSpace` of the first result; it returns the first result itself
whenever the trimmed ID holds no white space, and whenever the ID holds no
comma. -/
theorem Key_twice (x n m : String) :
    (Crawler.mk (Crawler.mk x n).Key m).Key = TrimSpace (Crawler.mk x n).Key ∧
    ((∀ c ∈ (TrimSpace x).data, isSpace c = false) →
      (Crawler.mk (Crawler.mk x n).Key m).Key = (Crawler.mk x n).Key) ∧
    (',' ∉ x.data → (Crawler.mk (Crawler.mk x n).Key m).Key = (Crawler.mk x n).Key) := by
  have h1 : (Crawler.mk (Crawler.mk x n).Key m).Key = TrimSpace (Crawler.mk x n).Key :=
    Key_Key x
  refine ⟨h1, ?_, ?_⟩
  · intro h
    rw [h1]
    apply String.ext
    simp only [TrimSpace]
    apply trimSpaceChars_of_no_space
    intro c hc
    rw [Key_data] at hc
    exact h c (List.mem_of_mem_filter hc)
  · intro h
    rw [h1]
    apply String.ext
    have hk : (Crawler.mk x n).Key.data = trimSpaceChars x.data := by
      rw [Key_data]
      exact filter_comma_of_no_comma _ (fun hc => h (mem_of_mem_trimSpaceChars hc))
    simp only [TrimSpace]
    rw [hk, trimSpaceChars_idempotent]

/-- The ID " 4,122 " is normalized to "4122", and normalizing again changes nothing. -/
theorem Key_twice_witness :
    (∀ c ∈ (TrimSpace " 4,122 ").data, isSpace c = false) ∧
    (Crawler.mk " 4,122 " "Carl").Key = "4122" ∧
    (Crawler.mk (Crawler.mk " 4,122 " "Carl").Key "Carl").Key = (Crawler.mk " 4,122 " "Carl").Key :=
  ⟨by decide, by decide, (Key_twice " 4,122 " "Carl" "Carl").2.1 (by decide)⟩

/-- C3 fails as stated: the ID ", 7" is normalized to " 7", which is normalized to "7". -/
theorem Key_not_idempotent :
    (Crawler.mk ", 7" "").Key = " 7" ∧
    (Crawler.mk (Crawler.mk ", 7" "").Key "").Key = "7" ∧
    (Crawler.mk (Crawler.mk ", 7" "").Key "").Key ≠ (Crawler.mk ", 7" "").Key := by
  decide

/-- C4, as the code has it: the error is recorded by the comparison closure, so
for every catalog with at least two entries (stored under their own keys) in
which a key fails to parse as a 64-bit integer, `SortIDsNumerically` returns a
non-nil error together with a permutation of the keys.  The sort procedure is
any one that meets the contract of `slices.SortFunc`. -/
theorem SortIDsNumerically_error (sortFunc : SortProc) (hsort : SortFuncContract sortFunc)
    (M : Crawlers) (hkeyed : M.Keyed) (hsize : 2 ≤ M.size)
    (k : String) (hk : k ∈ M.keys) (hbad : keyValue k = none) :
    (M.SortIDsNumerically sortFunc).2 ≠ none ∧
    (M.SortIDsNumerically sortFunc).1.Perm M.keys := by
  rw [SortIDsNumerically_of_keyed sortFunc M hkeyed]
  refine ⟨?_, hsort.perm compareKeys M.keys none⟩
  obtain ⟨calls, hst, _, hcov⟩ := hsort.calls compareKeys M.keys none
  have hlen : 2 ≤ M.keys.length := by simpa [Crawlers.keys, Crawlers.size] using hsize
  obtain ⟨c, hc, hck⟩ := hcov hlen k hk
  rw [hst]
  apply afterCalls_of_bad calls none c hc
  rcases hck with h | h
  · exact Or.inl (h ▸ hbad)
  · exact Or.inr (h ▸ hbad)

/-- The seed and a crawler whose ID is a lone comma, hence whose key is empty. -/
theorem SortIDsNumerically_error_witness :
    SortFuncContract insertionSortCmpFunc ∧
    ((Crawlers.empty.Add ⟨"4,122", "Carl"⟩).Add ⟨",", "Nobody"⟩).Keyed ∧
    2 ≤ ((Crawlers.empty.Add ⟨"4,122", "Carl"⟩).Add ⟨",", "Nobody"⟩).size ∧
    "" ∈ ((Crawlers.empty.Add ⟨"4,122", "Carl"⟩).Add ⟨",", "Nobody"⟩).keys ∧
    keyValue "" = none ∧
    (((Crawlers.empty.Add ⟨"4,122", "Carl"⟩).Add ⟨",", "Nobody"⟩).SortIDsNumerically
      insertionSortCmpFunc).2 ≠ none :=
  ⟨insertionSortCmpFunc_contract, by decide, by decide, by decide, by decide,
    (SortIDsNumerically_error insertionSortCmpFunc insertionSortCmpFunc_contract
      ((Crawlers.empty.Add ⟨"4,122", "Carl"⟩).Add ⟨",", "Nobody"⟩)
      (by decide) (by decide) "" (by decide) (by decide)).1⟩

/-- C4 fails as stated: in the catalog whose single entry has the key "abc" no
comparison is made, and `SortIDsNumerically` returns the key with a nil error. -/
theorem SortIDsNumerically_single_no_error :
    (Crawlers.empty.Add ⟨"abc", "Nobody"⟩).keys = ["abc"] ∧
    keyValue "abc" = none ∧
    (Crawlers.empty.Add ⟨"abc", "Nobody"⟩).SortIDsNumerically insertionSortCmpFunc
      = (["abc"], none) := by
  decide

/-- C5, as the code has it: `CSV` writes both fields with the verb `%q`; for
every entity whose ID and Name hold only printable runes other than the double
quote and the backslash (a comma and a space are such runes), the text is a
double quote, the ID verbatim, the three characters quote comma quote, the Name
verbatim, a double quote and a newline, and `MarshalCSV` returns its bytes. -/
theorem CSV_verbatim_of_plain (printTable : Char → Bool) (c : Crawler)
    (hid : ∀ r ∈ c.ID.data, plainRune printTable r = true)
    (hname : ∀ r ∈ c.Name.data, plainRune printTable r = true) :
    c.CSV printTable = verbatimLine c ∧
    c.MarshalCSV printTable = (verbatimLine c).toUTF8 := by
  have h : c.CSV printTable = verbatimLine c := by
    apply String.ext
    simp [Crawler.CSV, Quote, verbatimLine, flatMap_escapedRune_plain _ _ hid,
      flatMap_escapedRune_plain _ _ hname]
  exact ⟨h, by rw [Crawler.MarshalCSV, h]⟩

/-- The seed, with its comma, and a name with a space and a comma. -/
theorem CSV_verbatim_of_plain_witness :
    (∀ r ∈ (Crawler.mk "4,122" "Carl, the first").ID.data, plainRune (fun _ => false) r = true) ∧
    (∀ r ∈ (Crawler.mk "4,122" "Carl, the first").Name.data,
      plainRune (fun _ => false) r = true) ∧
    (Crawler.mk "4,122" "Carl, the first").CSV (fun _ => false)
      = ⟨[dquote, '4', ',', '1', '2', '2', dquote, ',', dquote, 'C', 'a', 'r', 'l', ',', ' ',
          't', 'h', 'e', ' ', 'f', 'i', 'r', 's', 't', dquote, newline]⟩ :=
  ⟨by decide, by decide,
    (CSV_verbatim_of_plain (fun _ => false) ⟨"4,122", "Carl, the first"⟩
      (by decide) (by decide)).1⟩

/-- C5 fails as stated: for the ID made of a double quote, a backslash and a tab
(and the name "x"), `CSV` writes, whatever the print tables, the three runes as
backslash quote, backslash backslash, backslash `t`; the text differs from the
verbatim line. -/
theorem CSV_escapes :
    (∀ printTable, (Crawler.mk ⟨[dquote, backslash, Char.ofNat 9]⟩ "x").CSV printTable
      = ⟨[dquote, backslash, dquote, backslash, backslash, backslash, 't', dquote, ',',
          dquote, 'x', dquote, newline]⟩) ∧
    (∀ printTable, (Crawler.mk ⟨[dquote, backslash, Char.ofNat 9]⟩ "x").CSV printTable
      ≠ verbatimLine (Crawler.mk ⟨[dquote, backslash, Char.ofNat 9]⟩ "x")) := by
  have h : ∀ printTable, (Crawler.mk ⟨[dquote, backslash, Char.ofNat 9]⟩ "x").CSV printTable
      = ⟨[dquote, backslash, dquote, backslash, backslash, backslash, 't', dquote, ',',
          dquote, 'x', dquote, newline]⟩ := by
    intro printTable
    apply String.ext
    have e1 : escapedRune printTable dquote = [backslash, dquote] := by simp [escapedRune]
    have e2 : escapedRune printTable backslash = [backslash, backslash] := by simp [escapedRune]
    have e3 : escapedRune printTable (Char.ofNat 9) = [backslash, 't'] := by
      have hq : ¬ (Char.ofNat 9 = dquote ∨ Char.ofNat 9 = backslash) := by decide
      have hp : IsPrint printTable (Char.ofNat 9) = false := by
        simp [IsPrint]
      simp only [escapedRune, hq, hp, if_false]
      decide
    have e4 : escapedRune printTable 'x' = ['x'] := by
      apply escapedRune_plain
      simp [plainRune, IsPrint]
      decide
    simp [Crawler.CSV, Quote, List.flatMap_cons, e1, e2, e3, e4]
  refine ⟨h, ?_⟩
  intro printTable
  rw [h]
  decide

/-- C6 on the code: a book that mentions crawler 7 as Alice and later as Bob.
`ScanBook` stores both mentions with `Add`, so its map holds Bob, and the
resolver, with force disabled, inserts Bob; the same two mentions in two books
leave Alice. -/
theorem gatherCatalog_same_book_last_mention :
    (ScanBook ["Crawler #7. “Alice.”", "Crawler #7. “Bob.”"]).entries = [("7", ⟨"7", "Bob"⟩)] ∧
    (gatherCatalog false [["Crawler #7. “Alice.”", "Crawler #7. “Bob.”"]]).get? "7"
      = some ⟨"7", "Bob"⟩ ∧
    (gatherCatalog false [["Crawler #7. “Alice.”"], ["Crawler #7. “Bob.”"]]).get? "7"
      = some ⟨"7", "Alice"⟩ := by
  decide

/-- C7. `Add` on an initialized catalog does not fail; afterwards the key of the
added entity reads that entity, whatever was stored before, and every other key
reads as before. -/
theorem Add_lookup_frame (M : Crawlers) (e : Crawler) :
    Crawlers.AddPtr (some (some M)) e = .ok (M.Add e) ∧
    (M.Add e).get? e.Key = some e ∧
    ∀ k, k ≠ e.Key → (M.Add e).get? k = M.get? k :=
  ⟨rfl, M.get?_Add_self e, fun k hk => M.get?_Add_other e k hk⟩

/-- C8. A line `Crawler #<id>. “<name>.”` whose id is a non-empty run of
decimal digits and commas and whose name is a non-empty run of ASCII letters,
digits, underscores and spaces that neither starts nor ends with a space is
matched by the pattern of `ScanBook` with the groups `id` and `name`, and the
book made of that line yields the single entity with that ID and that Name. -/
theorem ScanBook_mentionLine (id name : String)
    (hid : id.data ≠ []) (hidr : ∀ c ∈ id.data, reIdRune c = true)
    (hname : name.data ≠ []) (hnr : ∀ c ∈ name.data, asciiNameRune c = true)
    (hfirst : name.data.head? ≠ some ' ') (hlast : name.data.getLast? ≠ some ' ') :
    MatchString (mentionLine id name) = true ∧
    FindStringSubmatch (mentionLine id name) = some [mentionLine id name, id, name] ∧
    ScanBook [mentionLine id name] = Crawlers.empty.Add ⟨id, name⟩ ∧
    (ScanBook [mentionLine id name]).entries = [((Crawler.mk id name).Key, ⟨id, name⟩)] := by
  have hfind := FindStringSubmatch_mentionLine id name hid hidr hname hnr
  have hmatch : MatchString (mentionLine id name) = true := by
    simp [MatchString, hfind]
  have hidT : TrimSpace id = id := by
    apply String.ext
    exact trimSpaceChars_of_no_space _ (fun c hc => isSpace_false_of_reIdRune c (hidr c hc))
  have hnameT : TrimSpace name = name := by
    apply String.ext
    apply trimSpaceChars_of_ends
    · intro c hc
      cases hsp : isSpace c with
      | false => rfl
      | true =>
        have hmem : c ∈ name.data := List.mem_of_mem_head? hc
        have := eq_space_of_asciiNameRune c (hnr c hmem) hsp
        exact absurd (this ▸ hc) hfirst
    · intro c hc
      cases hsp : isSpace c with
      | false => rfl
      | true =>
        have hmem : c ∈ name.data := List.mem_of_getLast?_eq_some hc
        have := eq_space_of_asciiNameRune c (hnr c hmem) hsp
        exact absurd (this ▸ hc) hlast
  have hscan : ScanBook [mentionLine id name] = Crawlers.empty.Add ⟨id, name⟩ := by
    simp [ScanBook, scanLine, hmatch, hfind, hidT, hnameT]
  refine ⟨hmatch, hfind, hscan, ?_⟩
  rw [hscan]
  rfl

/-- Scenario A: the line `Crawler #4,122. “Carl.”`. -/
theorem ScanBook_mentionLine_witness :
    mentionLine "4,122" "Carl" = "Crawler #4,122. “Carl.”" ∧
    FindStringSubmatch "Crawler #4,122. “Carl.”" = some ["Crawler #4,122. “Carl.”", "4,122", "Carl"] ∧
    (ScanBook ["Crawler #4,122. “Carl.”"]).entries = [("4122", ⟨"4,122", "Carl"⟩)] :=
  have h := ScanBook_mentionLine "4,122" "Carl" (by decide) (by decide) (by decide) (by decide)
    (by decide) (by decide)
  ⟨by decide, h.2.1, h.2.2.2⟩

/-- C9. The resolver step is idempotent: processing the same entity a second
time right after the first leaves the catalog as the first step left it, for
either value of the force flag, and the same holds for the loop body at any
range key. -/
theorem resolve_idempotent (force : Bool) (M : Crawlers) (e : Crawler) :
    resolveEntity force (resolveEntity force M e) e = resolveEntity force M e ∧
    ∀ id, resolve force (resolve force M id e) id e = resolve force M id e := by
  have hgen : ∀ id, resolve force (resolve force M id e) id e = resolve force M id e := by
    intro id
    have hAddAdd : (M.Add e).Add e = M.Add e := by
      simp [Crawlers.Add, Crawlers.set, setEntries_setEntries]
    cases hget : M.get? id with
    | none =>
      have h1 : resolve force M id e = M.Add e := by simp [resolve, hget]
      rw [h1]
      by_cases hid : id = e.Key
      · have h2 : (M.Add e).get? id = some e := by rw [hid]; exact M.get?_Add_self e
        simp [resolve, h2]
      · have h2 : (M.Add e).get? id = none := by
          rw [M.get?_Add_other e id hid]; exact hget
        simp [resolve, h2, hAddAdd]
    | some existing =>
      by_cases hne : e = existing
      · have h1 : resolve force M id e = M := by simp [resolve, hget, hne]
        rw [h1, h1]
      · cases force with
        | false =>
          have h1 : resolve false M id e = M := by simp [resolve, hget, hne]
          rw [h1, h1]
        | true =>
          have h1 : resolve true M id e = M.Add e := by simp [resolve, hget, hne]
          rw [h1]
          by_cases hid : id = e.Key
          · have h2 : (M.Add e).get? id = some e := by rw [hid]; exact M.get?_Add_self e
            simp [resolve, h2]
          · have h2 : (M.Add e).get? id = some existing := by
              rw [M.get?_Add_other e id hid]; exact hget
            simp [resolve, h2, hne, hAddAdd]
  exact ⟨hgen e.Key, hgen⟩

/-- Scenario B: two books that each mention crawler 12 as Dana leave one entry
under the key "12", and resolving that entity once more changes nothing. -/
theorem resolve_idempotent_witness :
    (gatherCatalog false [["Crawler #12. “Dana.”"], ["Crawler #12. “Dana.”"]]).entries
      = [("4122", ⟨"4,122", "Carl"⟩), ("12", ⟨"12", "Dana"⟩)] ∧
    resolveEntity false (resolveEntity false (Crawlers.empty.Add seed) ⟨"12", "Dana"⟩)
        ⟨"12", "Dana"⟩
      = resolveEntity false (Crawlers.empty.Add seed) ⟨"12", "Dana"⟩ :=
  ⟨by decide, (resolve_idempotent false (Crawlers.empty.Add seed) ⟨"12", "Dana"⟩).1⟩

/-- C10. Two entities with the same canonical key share one entry: adding the
second after the first changes neither the key set nor the size, the catalog
holds exactly one entry under the shared key, and that entry is the second
entity. -/
theorem Add_same_key (M : Crawlers) (a b : Crawler) (hM : M.Valid) (hk : a.Key = b.Key) :
    ((M.Add a).Add b).keys = (M.Add a).keys ∧
    ((M.Add a).Add b).size = (M.Add a).size ∧
    ((M.Add a).Add b).entries.filter (fun p => p.1 = a.Key) = [(a.Key, b)] ∧
    ((M.Add a).Add b).get? a.Key = some b ∧
    ((M.Add a).Add b).Valid := by
  have hmem : b.Key ∈ (M.Add a).entries.map Prod.fst := by
    rw [← lookupEntries_isSome_iff, ← hk]
    have : lookupEntries a.Key (M.Add a).entries = some a := M.get?_Add_self a
    simp [this]
  have hkeys : ((M.Add a).Add b).keys = (M.Add a).keys :=
    setEntries_keys_of_mem b.Key b (M.Add a).entries hmem
  have hvalid : ((M.Add a).Add b).Valid := (M.Add a).Add_valid b (M.Add_valid a hM)
  have hget : ((M.Add a).Add b).get? a.Key = some b := by
    rw [hk]; exact (M.Add a).get?_Add_self b
  refine ⟨hkeys, ?_, ?_, hget, hvalid⟩
  · have := congrArg List.length hkeys
    simpa [Crawlers.keys, Crawlers.size] using this
  · exact filter_key_of_lookup a.Key b _ hvalid hget

/-- The seed "4,122" and the differently grouped " 41,22 " share the key "4122". -/
theorem Add_same_key_witness :
    (Crawlers.mk [("7", ⟨"7", "Alice"⟩)]).Valid ∧
    (Crawler.mk "4,122" "Carl").Key = (Crawler.mk " 41,22 " "Karl").Key ∧
    (((Crawlers.mk [("7", ⟨"7", "Alice"⟩)]).Add ⟨"4,122", "Carl"⟩).Add ⟨" 41,22 ", "Karl"⟩).entries
      = [("7", ⟨"7", "Alice"⟩), ("4122", ⟨" 41,22 ", "Karl"⟩)] ∧
    (((Crawlers.mk [("7", ⟨"7", "Alice"⟩)]).Add ⟨"4,122", "Carl"⟩).Add ⟨" 41,22 ", "Karl"⟩).size
      = ((Crawlers.mk [("7", ⟨"7", "Alice"⟩)]).Add ⟨"4,122", "Carl"⟩).size :=
  have h := Add_same_key ⟨[("7", ⟨"7", "Alice"⟩)]⟩ ⟨"4,122", "Carl"⟩ ⟨" 41,22 ", "Karl"⟩
    (by decide) (by decide)
  ⟨by decide, by decide, by decide, h.2.1⟩

/-- C11. Only the curly-quote style is recognized: a line that does not hold an
opening curly quotation mark followed later by a closing one is not matched by
the pattern, `FindStringSubmatch` returns no slice, and `ScanBook` extracts
nothing from it, whatever the catalog of the book held before. -/
theorem ScanBook_no_curly_quotes (line : String)
    (h : ¬ ∃ pre mid post, line.data = pre ++ openQuote :: (mid ++ closeQuote :: post)) :
    MatchString line = false ∧
    FindStringSubmatch line = none ∧
    (∀ crawlers, scanLine crawlers line = crawlers) ∧
    ScanBook [line] = Crawlers.empty := by
  have hnone : FindStringSubmatch line = none := by
    cases hf : FindStringSubmatch line with
    | none => rfl
    | some r =>
      exfalso
      obtain ⟨whole, id, name, a, b, d, rest, _, hline, _⟩ := FindStringSubmatch_sound line r hf
      exact h ⟨a ++ (id ++ b), name ++ d, rest, by rw [hline]; simp⟩
  have hscan : ∀ crawlers, scanLine crawlers line = crawlers := by
    intro crawlers
    simp [scanLine, MatchString, hnone]
  exact ⟨by simp [MatchString, hnone], hnone, hscan, by simp [ScanBook, hscan]⟩

/-- Scenario E: the mention of crawler 4,122 written with straight quotes. -/
theorem ScanBook_no_curly_quotes_witness :
    (straightLine "4,122" "Carl").data
      = "Crawler #4,122. ".data ++ dquote :: ("Carl.".data ++ [dquote]) ∧
    (¬ ∃ pre mid post, (straightLine "4,122" "Carl").data
      = pre ++ openQuote :: (mid ++ closeQuote :: post)) ∧
    FindStringSubmatch (straightLine "4,122" "Carl") = none ∧
    ScanBook [straightLine "4,122" "Carl"] = Crawlers.empty :=
  have hno : ¬ ∃ pre mid post, (straightLine "4,122" "Carl").data
      = pre ++ openQuote :: (mid ++ closeQuote :: post) := by
    rintro ⟨pre, mid, post, h⟩
    have hmem : openQuote ∈ (straightLine "4,122" "Carl").data := by
      rw [h]; simp
    revert hmem
    decide
  have h := ScanBook_no_curly_quotes (straightLine "4,122" "Carl") hno
  ⟨by decide, hno, h.2.1, h.2.2.2⟩

/-- C12, as the code has it: the fields are written with the verb `%q`, so for
every entity whose ID and Name hold only printable runes other than the double
quote and the backslash, re-parsing the serialized line (the leading quote and
the trailing quote and newline dropped, the rest split at quote comma quote)
recovers the ID and the Name. -/
theorem reparseLine_CSV (printTable : Char → Bool) (c : Crawler)
    (hid : ∀ r ∈ c.ID.data, plainRune printTable r = true)
    (hname : ∀ r ∈ c.Name.data, plainRune printTable r = true) :
    reparseLine (c.CSV printTable) = some (c.ID, c.Name) := by
  rw [CSV_of_plain printTable c hid hname]
  exact reparseLine_verbatimLine c (plainRune_ne_dquote printTable _ hid)

/-- The seed: its line is re-parsed to "4,122" and "Carl". -/
theorem reparseLine_CSV_witness :
    (∀ r ∈ seed.ID.data, plainRune (fun _ => false) r = true) ∧
    (∀ r ∈ seed.Name.data, plainRune (fun _ => false) r = true) ∧
    reparseLine (seed.CSV (fun _ => false)) = some ("4,122", "Carl") :=
  ⟨by decide, by decide, reparseLine_CSV (fun _ => false) seed (by decide) (by decide)⟩

/-- C12 fails as stated: the line `Crawler #7. “Carl<tab>Jr.”` yields the entity
with the name `Carl<tab>Jr`, which holds neither a double quote nor a comma; the
tab is written as backslash `t`, and the re-parsed name has those two runes in
its place. -/
theorem reparseLine_CSV_tab :
    (ScanBook [mentionLine "7" ⟨['C', 'a', 'r', 'l', Char.ofNat 9, 'J', 'r']⟩]).entries
      = [("7", ⟨"7", ⟨['C', 'a', 'r', 'l', Char.ofNat 9, 'J', 'r']⟩⟩)] ∧
    dquote ∉ "7".data ∧
    dquote ∉ ['C', 'a', 'r', 'l', Char.ofNat 9, 'J', 'r'] ∧
    ',' ∉ ['C', 'a', 'r', 'l', Char.ofNat 9, 'J', 'r'] ∧
    (∀ printTable,
      reparseLine ((Crawler.mk "7" ⟨['C', 'a', 'r', 'l', Char.ofNat 9, 'J', 'r']⟩).CSV printTable)
        = some ("7", ⟨['C', 'a', 'r', 'l', backslash, 't', 'J', 'r']⟩)) ∧
    (∀ printTable,
      reparseLine ((Crawler.mk "7" ⟨['C', 'a', 'r', 'l', Char.ofNat 9, 'J', 'r']⟩).CSV printTable)
        ≠ some ("7", ⟨['C', 'a', 'r', 'l', Char.ofNat 9, 'J', 'r']⟩)) := by
  have h : ∀ printTable,
      reparseLine ((Crawler.mk "7" ⟨['C', 'a', 'r', 'l', Char.ofNat 9, 'J', 'r']⟩).CSV printTable)
        = some ("7", ⟨['C', 'a', 'r', 'l', backslash, 't', 'J', 'r']⟩) := by
    intro printTable
    have hcsv : (Crawler.mk "7" ⟨['C', 'a', 'r', 'l', Char.ofNat 9, 'J', 'r']⟩).CSV printTable
        = ⟨[dquote, '7', dquote, ',', dquote, 'C', 'a', 'r', 'l', backslash, 't', 'J', 'r',
            dquote, newline]⟩ := by
      apply String.ext
      have h7 : "7".data = ['7'] := rfl
      simp [Crawler.CSV, Quote, h7, List.flatMap_cons, escapedRune_tab,
        escapedRune_ascii printTable '7' (by decide),
        escapedRune_ascii printTable 'C' (by decide),
        escapedRune_ascii printTable 'a' (by decide),
        escapedRune_ascii printTable 'r' (by decide),
        escapedRune_ascii printTable 'l' (by decide),
        escapedRune_ascii printTable 'J' (by decide)]
    rw [hcsv]
    decide
  refine ⟨by decide, by decide, by decide, by decide, h, ?_⟩
  intro printTable
  rw [h]
  decide

/-- C13. The bootstrap entry is always present: for every sequence of books the
final catalog has an entry under the key "4122", with or without force, and
with force disabled that entry is the seed; more generally, without force an
entry stored in the orchestrator's catalog is still there, unchanged, after any
further book. -/
theorem seed_kept (books : List (List String)) :
    (∀ force, ((gatherCatalog force books).get? "4122").isSome = true) ∧
    (gatherCatalog false books).get? "4122" = some ⟨"4,122", "Carl"⟩ ∧
    (∀ (M : Crawlers) (more : List (List String)) (k : String) (v : Crawler),
      M.get? k = some v → (more.foldl (resolveBook false) M).get? k = some v) :=
  ⟨fun force => foldl_resolveBook_keeps_key force books _ "4122" (by decide),
    foldl_resolveBook_false_keeps books _ "4122" seed (by decide),
    fun M more k v h => foldl_resolveBook_false_keeps more M k v h⟩

/-- Two books that mention crawler 4122 under another name and another grouping. -/
theorem seed_kept_witness :
    (gatherCatalog false [["Crawler #41,22. “Donut.”"], ["Crawler #4122. “Mordecai.”"]]).entries
      = [("4122", ⟨"4,122", "Carl"⟩)] ∧
    (gatherCatalog true [["Crawler #41,22. “Donut.”"], ["Crawler #4122. “Mordecai.”"]]).entries
      = [("4122", ⟨"4122", "Mordecai"⟩)] ∧
    (gatherCatalog false [["Crawler #41,22. “Donut.”"], ["Crawler #4122. “Mordecai.”"]]).get?
      "4122" = some ⟨"4,122", "Carl"⟩ :=
  ⟨by decide, by decide,
    (seed_kept [["Crawler #41,22. “Donut.”"], ["Crawler #4122. “Mordecai.”"]]).2.1⟩

/-- C14. For an ID made of white space, then decimal digits and commas, then
white space, `Key` returns exactly the digits of the ID in their order: a
pure-digit string.  Two such IDs with the same digits have the same key. -/
theorem Key_digits (ws₁ body ws₂ : List Char) (name : String)
    (h₁ : ∀ c ∈ ws₁, isSpace c = true) (hb : ∀ c ∈ body, reIdRune c = true)
    (h₂ : ∀ c ∈ ws₂, isSpace c = true) :
    (Crawler.mk ⟨ws₁ ++ body ++ ws₂⟩ name).Key = ⟨(ws₁ ++ body ++ ws₂).filter reDigit⟩ ∧
    (Crawler.mk ⟨ws₁ ++ body ++ ws₂⟩ name).Key = ⟨body.filter reDigit⟩ ∧
    (∀ c ∈ (Crawler.mk ⟨ws₁ ++ body ++ ws₂⟩ name).Key.data, reDigit c = true) := by
  have hkey : (Crawler.mk ⟨ws₁ ++ body ++ ws₂⟩ name).Key = ⟨body.filter reDigit⟩ := by
    apply String.ext
    rw [Key_data]
    show (trimSpaceChars (ws₁ ++ body ++ ws₂)).filter (fun c => c ≠ ',') = body.filter reDigit
    rw [trimSpaceChars_sandwich ws₁ body ws₂ h₁
      (fun c hc => isSpace_false_of_reIdRune c (hb c hc)) h₂]
    exact filter_comma_eq_filter_digit body hb
  have hws : ∀ ws : List Char, (∀ c ∈ ws, isSpace c = true) → ws.filter reDigit = [] := by
    intro ws hws
    rw [List.filter_eq_nil_iff]
    intro c hc
    simp [reDigit_false_of_isSpace c (hws c hc)]
  refine ⟨?_, hkey, ?_⟩
  · rw [hkey, List.filter_append, List.filter_append, hws ws₁ h₁, hws ws₂ h₂]
    simp
  · rw [hkey]
    intro c hc
    exact (List.mem_filter.1 hc).2

/-- The IDs "4,122", " 4122 " and "41,22" have the key "4122". -/
theorem Key_digits_witness :
    (∀ c ∈ [' '], isSpace c = true) ∧ (∀ c ∈ "41,22".data, reIdRune c = true) ∧
    (Crawler.mk ⟨[' '] ++ "41,22".data ++ [' ']⟩ "Carl").Key = "4122" ∧
    (Crawler.mk "4,122" "Carl").Key = "4122" ∧
    (Crawler.mk " 4122 " "Carl").Key = "4122" ∧
    (Crawler.mk "41,22" "Carl").Key = "4122" :=
  ⟨by decide, by decide,
    (Key_digits [' '] "41,22".data [' '] "Carl" (by decide) (by decide) (by decide)).2.1.trans
      (by decide),
    by decide, by decide, by decide⟩

/-- C15. Every entity stored in the final catalog of the pipeline, for every
sequence of books and either value of the force flag, has a non-empty ID made
of decimal digits and commas: the seed's, or the run the pattern captured. -/
theorem gatherCatalog_ID_nonempty (force : Bool) (books : List (List String)) :
    (∀ p ∈ (gatherCatalog force books).entries, p.2.ID ≠ "" ∧ p.2.idIsRun) ∧
    (∀ lines, ∀ p ∈ (ScanBook lines).entries, p.2.ID ≠ "" ∧ p.2.idIsRun) := by
  have hne : ∀ c : Crawler, c.idIsRun → c.ID ≠ "" := by
    intro c hc h
    apply hc.1
    rw [h]
  constructor
  · intro p hp
    have hseed : ∀ q ∈ (Crawlers.empty.Add seed).entries, q.2.idIsRun := by decide
    have := foldl_resolveBook_idIsRun force books _ hseed p hp
    exact ⟨hne _ this, this⟩
  · intro lines p hp
    have := ScanBook_idIsRun lines p hp
    exact ⟨hne _ this, this⟩

/-- A book with a mention whose ID is a lone comma: the stored IDs are "4,122"
and ",", both non-empty. -/
theorem gatherCatalog_ID_nonempty_witness :
    (gatherCatalog true [["Crawler #,. “Nobody.”", "no mention here"]]).entries
      = [("4122", ⟨"4,122", "Carl"⟩), ("", ⟨",", "Nobody"⟩)] ∧
    (∀ p ∈ (gatherCatalog true [["Crawler #,. “Nobody.”", "no mention here"]]).entries,
      p.2.ID ≠ "" ∧ p.2.idIsRun) :=
  ⟨by decide,
    (gatherCatalog_ID_nonempty true [["Crawler #,. “Nobody.”", "no mention here"]]).1⟩

/-- C16, as the code has it: the canonical key of an extracted identifier (a run
of decimal digits and commas) parses in the comparison of `SortIDsNumerically`
exactly when the identifier holds a digit and its digits stand for an integer
below `2^63`, and then the key stands for that integer; a catalog (entries
under their own keys) whose IDs are all such identifiers sorts without error,
for every sort procedure that meets the contract of `slices.SortFunc`. -/
theorem extracted_key_parses :
    (∀ id name : String, (∀ c ∈ id.data, reIdRune c = true) →
      ((keyValue (Crawler.mk id name).Key).isSome = true ↔
        id.data.filter reDigit ≠ [] ∧ digitsValue (id.data.filter reDigit) 0 < 2 ^ 63) ∧
      (id.data.filter reDigit ≠ [] → digitsValue (id.data.filter reDigit) 0 < 2 ^ 63 →
        keyValue (Crawler.mk id name).Key
          = some (digitsValue (id.data.filter reDigit) 0 : Int))) ∧
    (∀ (sortFunc : SortProc) (M : Crawlers), SortFuncContract sortFunc → M.Keyed →
      (∀ p ∈ M.entries, p.2.idIsRun ∧ p.2.ID.data.filter reDigit ≠ [] ∧
        digitsValue (p.2.ID.data.filter reDigit) 0 < 2 ^ 63) →
      (M.SortIDsNumerically sortFunc).2 = none) := by
  constructor
  · intro id name hid
    have h := keyValue_Key_of_run id name hid
    constructor
    · rw [h]
      by_cases hc : id.data.filter reDigit ≠ [] ∧ digitsValue (id.data.filter reDigit) 0 < 2 ^ 63
      · simp [hc]
      · rw [if_neg hc]
        simp only [Option.isSome_none, Bool.false_eq_true, false_iff]
        exact hc
    · intro h1 h2
      rw [h, if_pos ⟨h1, h2⟩]
  · intro sortFunc M hsort hkeyed hall
    apply SortIDsNumerically_no_error sortFunc hsort M hkeyed
    intro k hk
    obtain ⟨p, hp, hpk⟩ := List.mem_map.1 hk
    obtain ⟨hrun, hdig, hval⟩ := hall p hp
    rw [← hpk, hkeyed p hp]
    have h := keyValue_Key_of_run p.2.ID p.2.Name hrun.2
    rw [show (Crawler.mk p.2.ID p.2.Name) = p.2 from rfl] at h
    rw [h, if_pos ⟨hdig, hval⟩]
    rfl

/-- The seed's ID "4,122" has the key value 4122, and the catalog of the seed and
crawler 7 sorts without error. -/
theorem extracted_key_parses_witness :
    (∀ c ∈ "4,122".data, reIdRune c = true) ∧
    digitsValue ("4,122".data.filter reDigit) 0 = 4122 ∧
    keyValue (Crawler.mk "4,122" "Carl").Key = some 4122 ∧
    ((Crawlers.empty.Add seed).Add ⟨"7", "Alice"⟩).SortIDsNumerically insertionSortCmpFunc
      = (["7", "4122"], none) :=
  ⟨by decide, by decide,
    (extracted_key_parses.1 "4,122" "Carl" (by decide)).2 (by decide) (by decide),
    by decide⟩

/-- C16 fails as stated: the pattern extracts the ID "," from the line
`Crawler #,. “Nobody.”`; its key is the empty string, which does not parse, and
the catalog of the seed and that entity sorts with an error.  The key of a
twenty-digit ID does not parse either. -/
theorem extracted_key_not_parsed :
    FindStringSubmatch "Crawler #,. “Nobody.”"
      = some ["Crawler #,. “Nobody.”", ",", "Nobody"] ∧
    (Crawler.mk "," "Nobody").Key = "" ∧
    keyValue (Crawler.mk "," "Nobody").Key = none ∧
    (gatherCatalog false [["Crawler #,. “Nobody.”"]]).entries
      = [("4122", ⟨"4,122", "Carl"⟩), ("", ⟨",", "Nobody"⟩)] ∧
    (gatherCatalog false [["Crawler #,. “Nobody.”"]]).SortIDsNumerically insertionSortCmpFunc
      = (["4122", ""], some .invalid) ∧
    gatherCrawlers insertionSortCmpFunc (fun _ => false) false [["Crawler #,. “Nobody.”"]]
      = .sortFailed .invalid ∧
    keyValue (Crawler.mk "99,999,999,999,999,999,999" "Max").Key = none := by
  decide

/-- C17. The serialized text of every entity is exactly one line: it is a text
without a newline (and without any other control character, a carriage return
included) followed by one newline, so it holds one newline; the text written
for a sequence of keys holds as many newlines as keys, and the output of a run
as many as the catalog has entries. -/
theorem CSV_one_line (printTable : Char → Bool) (c : Crawler) :
    (∃ body, (c.CSV printTable).data = body ++ [newline] ∧ newline ∉ body ∧
      Char.ofNat 13 ∉ body) ∧
    (c.CSV printTable).data.count newline = 1 ∧
    (∀ (M : Crawlers) (keys : List String),
      (String.join (keys.map fun k => (M.index k).CSV printTable)).data.count newline
        = keys.length) ∧
    (∀ sortFunc force books out, SortFuncContract sortFunc →
      gatherCrawlers sortFunc printTable force books = .written out →
      out.data.count newline = (gatherCatalog force books).size) := by
  refine ⟨?_, CSV_count_newline printTable c, ?_, ?_⟩
  · obtain ⟨body, hdata, hbody⟩ := CSV_newline_split printTable c
    refine ⟨body, hdata, ?_, ?_⟩
    · intro h
      have := hbody _ h
      revert this
      decide
    · intro h
      have := hbody _ h
      revert this
      decide
  · intro M keys
    have := join_CSV_count_newline printTable (keys.map fun k => M.index k)
    simpa [List.map_map, Function.comp] using this
  · intro sortFunc force books out hsort hout
    unfold gatherCrawlers at hout
    split at hout
    · cases hout
    · have hk := (gatherCatalog_valid_keyed force books).2
      have hperm := hsort.perm compareKeys (gatherCatalog force books).keys none
      rw [SortIDsNumerically_of_keyed sortFunc _ hk] at hout
      split at hout
      · rename_i sortedKeys heq
        simp only [Outcome.written.injEq] at hout
        rw [← hout]
        have hcount := join_CSV_count_newline printTable
          (sortedKeys.map fun k => (gatherCatalog force books).index k)
        simp only [List.map_map, Function.comp, List.length_map] at hcount
        have hlen : sortedKeys.length = (gatherCatalog force books).keys.length := by
          have := hperm.length_eq
          rw [heq] at this
          exact this
        rw [hlen] at hcount
        simpa [Crawlers.keys, Crawlers.size] using hcount
      · cases hout

/-- A name that holds a newline and a carriage return is written on one line. -/
theorem CSV_one_line_witness :
    (Crawler.mk "7" ⟨['A', newline, Char.ofNat 13, 'B']⟩).CSV (fun _ => false)
      = ⟨[dquote, '7', dquote, ',', dquote, 'A', backslash, 'n', backslash, 'r', 'B', dquote,
          newline]⟩ ∧
    ((Crawler.mk "7" ⟨['A', newline, Char.ofNat 13, 'B']⟩).CSV (fun _ => false)).data.count
      newline = 1 :=
  ⟨by decide, (CSV_one_line (fun _ => false) ⟨"7", ⟨['A', newline, Char.ofNat 13, 'B']⟩⟩).2.1⟩

/-- C18. For every catalog built from the empty catalog by `Add` calls, visited
in any order, each entry is stored under the canonical key of its own ID, and
the sequence `SortIDsNumerically` returns is a permutation of the map keys (no
key twice, as many keys as entries), with or without an error; so every
returned key reads an entry of the catalog, the one whose key it is.  The sort
procedure is any one that meets the contract of `slices.SortFunc`. -/
theorem SortIDsNumerically_perm_keys (sortFunc : SortProc) (hsort : SortFuncContract sortFunc)
    (B M : Crawlers) (hB : B.BuiltByAdd) (hM : M.entries.Perm B.entries) :
    M.Keyed ∧ M.Valid ∧
    (M.SortIDsNumerically sortFunc).1.Perm M.keys ∧
    (M.SortIDsNumerically sortFunc).1.Nodup ∧
    (M.SortIDsNumerically sortFunc).1.length = M.size ∧
    (∀ k ∈ (M.SortIDsNumerically sortFunc).1,
      ∃ e, M.get? k = some e ∧ M.index k = e ∧ e.Key = k) := by
  obtain ⟨hBv, hBk⟩ := hB.valid_keyed
  have hkeyed : M.Keyed := fun p hp => hBk p (hM.subset hp)
  have hvalid : M.Valid := ((hM.map Prod.fst).nodup_iff).2 hBv
  have hperm : (M.SortIDsNumerically sortFunc).1.Perm M.keys := by
    rw [SortIDsNumerically_of_keyed sortFunc M hkeyed]
    exact hsort.perm compareKeys M.keys none
  refine ⟨hkeyed, hvalid, hperm, (hperm.nodup_iff).2 hvalid, ?_, ?_⟩
  · rw [hperm.length_eq]
    simp [Crawlers.keys, Crawlers.size]
  · intro k hk
    have hmem : k ∈ M.entries.map Prod.fst := hperm.subset hk
    have hsome := (lookupEntries_isSome_iff k M.entries).2 hmem
    obtain ⟨e, he⟩ := Option.isSome_iff_exists.1 hsome
    have he' : M.get? k = some e := he
    refine ⟨e, he', by simp [Crawlers.index, he'], ?_⟩
    exact (hkeyed (k, e) (lookupEntries_mem k e M.entries he)).symm

/-- The catalog of the seed, crawler 10 and crawler 7, whose sorted keys each
read an entry. -/
theorem SortIDsNumerically_perm_keys_witness :
    SortFuncContract insertionSortCmpFunc ∧
    (((Crawlers.empty.Add seed).Add ⟨"10", "Ann"⟩).Add ⟨"7", "Alice"⟩).BuiltByAdd ∧
    (((Crawlers.empty.Add seed).Add ⟨"10", "Ann"⟩).Add ⟨"7", "Alice"⟩).SortIDsNumerically
      insertionSortCmpFunc = (["7", "10", "4122"], none) ∧
    ((((Crawlers.empty.Add seed).Add ⟨"10", "Ann"⟩).Add ⟨"7", "Alice"⟩).SortIDsNumerically
      insertionSortCmpFunc).1.length
      = (((Crawlers.empty.Add seed).Add ⟨"10", "Ann"⟩).Add ⟨"7", "Alice"⟩).size :=
  have hB : (((Crawlers.empty.Add seed).Add ⟨"10", "Ann"⟩).Add ⟨"7", "Alice"⟩).BuiltByAdd :=
    Crawlers.BuiltByAdd.add _ _
      (Crawlers.BuiltByAdd.add _ _ (Crawlers.BuiltByAdd.add _ _ Crawlers.BuiltByAdd.empty))
  ⟨insertionSortCmpFunc_contract, hB, by decide,
    (SortIDsNumerically_perm_keys insertionSortCmpFunc insertionSortCmpFunc_contract
      _ (((Crawlers.empty.Add seed).Add ⟨"10", "Ann"⟩).Add ⟨"7", "Alice"⟩) hB
      (List.Perm.refl _)).2.2.2.2.1⟩

/-- C19. Resolver steps on different keys commute: resolving `e₁` then `e₂` and
resolving `e₂` then `e₁` give the same map (every key reads the same; the
entry lists are permutations of each other when the catalog is a map).  So the
catalog after a book is the same map for every order in which the loop visits
the pairs of the map `ScanBook` returned. -/
theorem resolve_commute (force : Bool) (M : Crawlers) (e₁ e₂ : Crawler)
    (hne : e₁.Key ≠ e₂.Key) :
    (∀ k, (resolveEntity force (resolveEntity force M e₁) e₂).get? k
      = (resolveEntity force (resolveEntity force M e₂) e₁).get? k) ∧
    (M.Valid → (resolveEntity force (resolveEntity force M e₁) e₂).entries.Perm
      (resolveEntity force (resolveEntity force M e₂) e₁).entries) ∧
    (∀ (book : List String) (order : List (String × Crawler)),
      order.Perm (ScanBook book).entries →
      ∀ k, (order.foldl (fun acc p => resolve force acc p.1 p.2) M).get? k
        = (resolveBook force M book).get? k) := by
  have hsame := resolve_comm force M e₁ e₂ hne
  refine ⟨hsame, ?_, ?_⟩
  · intro hM
    have hk : ∀ (A : Crawlers) (id : String) (e : Crawler), A.Valid →
        (resolve force A id e).Valid := by
      intro A id e hA
      rcases resolve_cases force A id e with h | h
      · rw [h]; exact hA
      · rw [h]; exact A.Add_valid e hA
    exact Crawlers.Same.perm (hk _ _ _ (hk _ _ _ hM)) (hk _ _ _ (hk _ _ _ hM)) hsame
  · intro book order horder k
    obtain ⟨hv, hkd⟩ := (ScanBook_builtByAdd book).valid_keyed
    have hkeyed : ∀ p ∈ order, p.1 = p.2.Key := fun p hp => hkd p (horder.subset hp)
    have hnd : (order.map Prod.fst).Nodup := ((horder.map Prod.fst).nodup_iff).2 hv
    exact foldl_resolve_perm force order (ScanBook book).entries horder hkeyed hnd M M
      (fun _ => rfl) k

/-- Crawlers 7 and 12 resolved in either order into the seeded catalog. -/
theorem resolve_commute_witness :
    (Crawler.mk "7" "Alice").Key ≠ (Crawler.mk "12" "Dana").Key ∧
    (resolveEntity false (resolveEntity false (Crawlers.empty.Add seed) ⟨"7", "Alice"⟩)
      ⟨"12", "Dana"⟩).entries
      = [("4122", ⟨"4,122", "Carl"⟩), ("7", ⟨"7", "Alice"⟩), ("12", ⟨"12", "Dana"⟩)] ∧
    (resolveEntity false (resolveEntity false (Crawlers.empty.Add seed) ⟨"12", "Dana"⟩)
      ⟨"7", "Alice"⟩).entries
      = [("4122", ⟨"4,122", "Carl"⟩), ("12", ⟨"12", "Dana"⟩), ("7", ⟨"7", "Alice"⟩)] ∧
    (∀ k, (resolveEntity false (resolveEntity false (Crawlers.empty.Add seed) ⟨"7", "Alice"⟩)
        ⟨"12", "Dana"⟩).get? k
      = (resolveEntity false (resolveEntity false (Crawlers.empty.Add seed) ⟨"12", "Dana"⟩)
        ⟨"7", "Alice"⟩).get? k) :=
  ⟨by decide, by decide, by decide,
    (resolve_commute false (Crawlers.empty.Add seed) ⟨"7", "Alice"⟩ ⟨"12", "Dana"⟩
      (by decide)).1⟩

end GrepCrawlers
